import Mathlib

/-!
# Longest compound word (icza/quiz, `findcompword.go`)

A shallow embedding of the search core of `findcompword.go`:

* `contains`    : binary search (`sort.SearchStrings`) in a sorted slice of strings,
* `compound`    : the recursive decomposition test,
* `findLongest` : the sequential single-pass selection,
* `findLongestParal` : the parallel selection, as a machine whose steps are
  those of the dispatcher and of the worker goroutines (`step`, `run`).

A Go `string` is a sequence of bytes; it is embedded as a `List Nat` whose
elements are the byte values (`0 .. 255`).  `len` is the number of bytes,
`==` and `<` are byte-wise, `word[:i]` is `List.take i` and `word[i:]` is
`List.drop i`.  `for i := range word` visits the byte offsets at which the
UTF-8 decoder of the Go runtime starts a rune.
-/

namespace FindCompWord

/-- A Go string: its bytes, in order. -/
abbrev Str := List Nat

/-! ## String comparison -/

/-- Go's `a < b` on strings: byte-wise lexicographic order, a proper prefix
being smaller. -/
def strLess : Str → Str → Bool
  | _, [] => false
  | [], _ :: _ => true
  | a :: as, b :: bs => decide (a < b) || (decide (a = b) && strLess as bs)

/-- Go's `a >= b` on strings. -/
def strGE (a b : Str) : Bool := !strLess a b

/-- The slice is in ascending order (repetitions allowed): what `sort.Strings`
establishes. -/
def Sorted (ss : List Str) : Prop := ss.Pairwise (fun a b => strLess b a = false)

/-- The slice is in strictly ascending order: sorted and free of duplicates. -/
def StrictSorted (ss : List Str) : Prop := ss.Pairwise (fun a b => strLess a b = true)

/-! ## Binary search (`sort.Search`, `sort.SearchStrings`) -/

/-- The loop of `sort.Search`:
`for i < j { h := int(uint(i+j) >> 1); if !f(h) { i = h + 1 } else { j = h } }`,
followed by `return i`.  Every iteration shrinks `j - i`, so `fuel` bounds the
number of iterations that are run. -/
def searchLoop (f : Nat → Bool) : Nat → Nat → Nat → Nat
  | 0, i, _ => i
  | fuel + 1, i, j =>
    if i < j then
      let h := (i + j) / 2
      if !f h then searchLoop f fuel (h + 1) j else searchLoop f fuel i h
    else i

/-- Go's `sort.Search(n, f)`: `i, j := 0, n` and then the loop.  The loop runs
at most `n` times (see `searchLoop_fuel`). -/
def Search (n : Nat) (f : Nat → Bool) : Nat := searchLoop f n 0 n

/-- Go's `sort.SearchStrings(a, x)`:
`Search(len(a), func(i int) bool { return a[i] >= x })`.  The probe index is
always inside the slice. -/
def SearchStrings (a : List Str) (x : Str) : Nat :=
  Search a.length (fun i => strGE (a.getD i []) x)

/-- Source `contains`:
`i := sort.SearchStrings(ss, s); return i < len(ss) && ss[i] == s`. -/
def contains (ss : List Str) (s : Str) : Bool :=
  let i := SearchStrings ss s
  decide (i < ss.length) && decide (ss.getD i [] = s)

/-! ## `for i := range word`: the rune decoder of the Go runtime -/

/-- Constant `runeError` of `runtime/utf8.go` (U+FFFD). -/
def runeError : Nat := 0xFFFD
/-- Constant `runeSelf`: bytes below it are single-byte runes. -/
def runeSelf : Nat := 0x80
/-- Constant `maxRune`. -/
def maxRune : Nat := 0x10FFFF
/-- Constant `surrogateMin`. -/
def surrogateMin : Nat := 0xD800
/-- Constant `surrogateMax`. -/
def surrogateMax : Nat := 0xDFFF
/-- Constant `t2 = 0b11000000`. -/
def t2 : Nat := 0xC0
/-- Constant `t3 = 0b11100000`. -/
def t3 : Nat := 0xE0
/-- Constant `t4 = 0b11110000`. -/
def t4 : Nat := 0xF0
/-- Constant `t5 = 0b11111000`. -/
def t5 : Nat := 0xF8
/-- Constant `maskx = 0b00111111`. -/
def maskx : Nat := 0x3F
/-- Constant `mask2 = 0b00011111`. -/
def mask2 : Nat := 0x1F
/-- Constant `mask3 = 0b00001111`. -/
def mask3 : Nat := 0x0F
/-- Constant `mask4 = 0b00000111`. -/
def mask4 : Nat := 0x07
/-- Constant `rune1Max = 1<<7 - 1`. -/
def rune1Max : Nat := 0x7F
/-- Constant `rune2Max = 1<<11 - 1`. -/
def rune2Max : Nat := 0x7FF
/-- Constant `rune3Max = 1<<16 - 1`. -/
def rune3Max : Nat := 0xFFFF
/-- Constant `locb = 0b10000000`, the lowest continuation byte. -/
def locb : Nat := 0x80
/-- Constant `hicb = 0b10111111`, the highest continuation byte. -/
def hicb : Nat := 0xBF

/-- The test `locb <= b && b <= hicb` of `decoderune`. -/
def isCont (b : Nat) : Bool := decide (locb ≤ b) && decide (b ≤ hicb)

/-- Go runtime `decoderune(s, k)` applied at the head of `s` (that is, with
`s = word[k:]`): the decoded rune and the number of bytes it takes.  An
ill-formed sequence gives `(runeError, 1)`; a well-formed multi-byte rune gives
a width of 2, 3 or 4. -/
def decoderune (s : Str) : Nat × Nat :=
  match s with
  | [] => (runeError, 1)
  | b0 :: rest =>
    if t2 ≤ b0 ∧ b0 < t3 then
      match rest with
      | b1 :: _ =>
        if isCont b1 then
          let r := ((b0 &&& mask2) <<< 6) ||| (b1 &&& maskx)
          if rune1Max < r then (r, 2) else (runeError, 1)
        else (runeError, 1)
      | _ => (runeError, 1)
    else if t3 ≤ b0 ∧ b0 < t4 then
      match rest with
      | b1 :: b2 :: _ =>
        if isCont b1 ∧ isCont b2 then
          let r := ((b0 &&& mask3) <<< 12) ||| ((b1 &&& maskx) <<< 6) ||| (b2 &&& maskx)
          if rune2Max < r ∧ ¬ (surrogateMin ≤ r ∧ r ≤ surrogateMax) then (r, 3)
          else (runeError, 1)
        else (runeError, 1)
      | _ => (runeError, 1)
    else if t4 ≤ b0 ∧ b0 < t5 then
      match rest with
      | b1 :: b2 :: b3 :: _ =>
        if isCont b1 ∧ isCont b2 ∧ isCont b3 then
          let r := ((b0 &&& mask4) <<< 18) ||| ((b1 &&& maskx) <<< 12)
                    ||| ((b2 &&& maskx) <<< 6) ||| (b3 &&& maskx)
          if rune3Max < r ∧ r ≤ maxRune then (r, 4) else (runeError, 1)
        else (runeError, 1)
      | _ => (runeError, 1)
    else (runeError, 1)

/-- One step of a `range` loop over a string whose remaining bytes are `s`: the
number of bytes the loop advances by.  A byte below `runeSelf` is a rune of its
own; otherwise `decoderune` decides. -/
def runeWidth (s : Str) : Nat :=
  match s with
  | [] => 1
  | b0 :: _ => if b0 < runeSelf then 1 else (decoderune s).2

/-- The rune at the head of `s` is a well-formed UTF-8 sequence: a byte below
`runeSelf`, or a multi-byte sequence that `decoderune` accepts. -/
def headValid (s : Str) : Bool :=
  match s with
  | [] => false
  | b0 :: _ => decide (b0 < runeSelf) || decide (1 < (decoderune s).2)

/-- The byte offsets visited by a `range` loop that is at offset `off` with the
bytes `s` still to go.  Each step consumes at least one byte, so `fuel` bounds
the number of steps. -/
def rangeFrom : Nat → Nat → Str → List Nat
  | 0, _, _ => []
  | fuel + 1, off, s =>
    match s with
    | [] => []
    | _ :: _ => off :: rangeFrom fuel (off + runeWidth s) (s.drop (runeWidth s))

/-- The values `i` of `for i := range word`, in order: the offset of every rune
of `word`. -/
def rangeIndices (word : Str) : List Nat := rangeFrom word.length 0 word

/-- Number of runes (Unicode code points) of a string, as
`utf8.RuneCountInString` counts them: the number of steps of a `range` loop. -/
def runeCount (word : Str) : Nat := (rangeIndices word).length

/-- Every rune met while ranging over `s` is well formed. -/
def validFrom : Nat → Str → Bool
  | 0, s => decide (s = [])
  | fuel + 1, s =>
    match s with
    | [] => true
    | _ :: _ => headValid s && validFrom fuel (s.drop (runeWidth s))

/-- The string is valid UTF-8 (`utf8.ValidString`). -/
def validUTF8 (s : Str) : Bool := validFrom s.length s

/-! ## The decomposition test -/

/-- The body of the loop of `compound`, run over the remaining split offsets;
`self` stands for the recursive call `compound(words, ·)`, which gives `none`
when the recursion budget is used up.

```go
for i := range word {
    if i == 0 { continue }
    prefix := word[:i]
    if !contains(words, prefix) { continue }
    rest := word[i:]
    if contains(words, rest) || compound(words, rest) { return true }
}
return false
```
-/
def splitLoop (words : List Str) (self : Str → Option Bool) (word : Str) :
    List Nat → Option Bool
  | [] => some false
  | i :: is =>
    if i = 0 then splitLoop words self word is
    else if !contains words (word.take i) then splitLoop words self word is
    else if contains words (word.drop i) then some true
    else
      match self (word.drop i) with
      | none => none
      | some true => some true
      | some false => splitLoop words self word is

/-- Source `compound` with a bound `depth` on the nesting of recursive calls
below the present one: `none` when a call deeper than that would be needed. -/
def compoundAux (words : List Str) : Nat → Str → Option Bool
  | 0, word => splitLoop words (fun _ => none) word (rangeIndices word)
  | depth + 1, word => splitLoop words (compoundAux words depth) word (rangeIndices word)

/-- Source `compound(words, word)`.  The recursion never nests deeper than the
number of runes of `word` (lemma `compoundAux_eq`), so the budget
`runeCount word` is never used up. -/
def compound (words : List Str) (word : Str) : Bool :=
  match compoundAux words (runeCount word) word with
  | some b => b
  | none => false

/-! ## The sequential selector -/

/-- One iteration of the loop of `findLongest`:
`if len(longest) >= len(word) { continue }; if compound(words, word) { longest = word }`. -/
def findLongestStep (words : List Str) (longest word : Str) : Str :=
  if longest.length ≥ word.length then longest
  else if compound words word then word
  else longest

/-- Source `findLongest`: `longest` starts as `""` and the loop body is run for
every word of the slice in order. -/
def findLongest (words : List Str) : Str :=
  words.foldl (findLongestStep words) []

/-! ## What the search is meant to compute -/

/-- The string `word` is the concatenation of at least two non-empty members of
`words`. -/
def IsConcat (words : List Str) (word : Str) : Prop :=
  ∃ parts : List Str, 2 ≤ parts.length ∧ (∀ p ∈ parts, p ≠ [] ∧ p ∈ words) ∧ parts.flatten = word

/-- The condition under which the loop of `compound` returns `true` at the
split offset `i`, when `g` answers the recursive call. -/
def splitOK (words : List Str) (g : Str → Bool) (word : Str) (i : Nat) : Bool :=
  decide (i ≠ 0) && (contains words (word.take i) &&
    (contains words (word.drop i) || g (word.drop i)))

instance (ss : List Str) : Decidable (Sorted ss) := by
  unfold Sorted
  infer_instance

instance (ss : List Str) : Decidable (StrictSorted ss) := by
  unfold StrictSorted
  infer_instance

/-! ## Strings of the test suite, as UTF-8 bytes -/

/-- The string `"a"`. -/
def sA : Str := [0x61]
/-- The string `"b"`. -/
def sB : Str := [0x62]
/-- The string `"c"`. -/
def sC : Str := [0x63]
/-- The string `"ab"`. -/
def sAB : Str := [0x61, 0x62]
/-- The string `"bc"`. -/
def sBC : Str := [0x62, 0x63]
/-- The string `"abc"`. -/
def sABC : Str := [0x61, 0x62, 0x63]
/-- The string `"ababc"`. -/
def sABABC : Str := [0x61, 0x62, 0x61, 0x62, 0x63]
/-- The string `"世"` (U+4E16). -/
def sShi : Str := [0xE4, 0xB8, 0x96]
/-- The string `"界"` (U+754C). -/
def sJie : Str := [0xE7, 0x95, 0x8C]
/-- The string `"世界"`. -/
def sShiJie : Str := [0xE4, 0xB8, 0x96, 0xE7, 0x95, 0x8C]

/-! ## The collection of results in the parallel selector -/

/-- The step that `findLongestParal` runs for every candidate it receives from
the results channel, in the loop of the dispatcher and in the final loop alike:
`if len(candidate) > len(longest) { longest = candidate }`. -/
def collectStep (longest candidate : Str) : Str :=
  if candidate.length > longest.length then candidate else longest

/-- The value of `longest` after the candidates `cs` have been received in
this order, starting from `best`. -/
def collect (best : Str) (cs : List Str) : Str :=
  cs.foldl collectStep best

/-- The greatest length (in bytes) of a string of the list, 0 for the empty
list. -/
def maxLength (cs : List Str) : Nat :=
  cs.foldr (fun c m => max c.length m) 0

/-! ## Lists with repetitions -/

/-- The list with every run of equal consecutive strings reduced to one of
them. -/
def removeConsecutiveDuplicates : List Str → List Str
  | [] => []
  | [x] => [x]
  | x :: y :: t =>
    if x = y then removeConsecutiveDuplicates (y :: t)
    else x :: removeConsecutiveDuplicates (y :: t)

/-! ## The parallel selector as a machine of goroutine steps

`findLongestParal` runs a dispatcher (the calling goroutine) and `n` workers
that communicate through two buffered channels.  An execution is a sequence of
steps, each taken by one goroutine that is able to move; a goroutine blocked on
a channel or on the wait group has no step. -/

/-- The capacity of both channels: `make(chan string, 1000)`. -/
def chanCap : Nat := 1000

/-- Where a worker goroutine is in
`for word := range wordchan { if compound(words, word) { reschan <- word } }`. -/
inductive Worker where
  /-- About to receive from `wordchan`. -/
  | idle : Worker
  /-- Holding a received word: about to test it, and to send it on `reschan` when it is compound. -/
  | busy (word : Str) : Worker
  /-- Out of the loop, `wg.Done()` called. -/
  | done : Worker

/-- Where the dispatcher is in the body of `findLongestParal`. -/
inductive Pc where
  /-- At the head of `for _, word := range words`, with the words still to visit. -/
  | top (rest : List Str) : Pc
  /-- In `for j := len(reschan); j > 0; j--`, with `j` receptions still to make. -/
  | drain (j : Nat) (word : Str) (rest : List Str) : Pc
  /-- At `wordchan <- word`. -/
  | send (word : Str) (rest : List Str) : Pc
  /-- After `close(wordchan)`, at `wg.Wait()`. -/
  | wait : Pc
  /-- After the final loop over `reschan`: the function has returned `longest`. -/
  | returned : Pc

/-- The state of an execution of `findLongestParal`: the place of the
dispatcher, its variable `longest`, the buffer of `wordchan` (oldest first) and
whether it is closed, the buffer of `reschan`, and the workers. -/
structure ParState where
  /-- Place of the dispatcher. -/
  pc : Pc
  /-- Variable `longest`. -/
  longest : Str
  /-- Buffer of `wordchan`, oldest first. -/
  wordchan : List Str
  /-- Whether `wordchan` is closed. -/
  closed : Bool
  /-- Buffer of `reschan`, oldest first. -/
  reschan : List Str
  /-- The worker goroutines. -/
  workers : List Worker

/-- A step of an execution: of the dispatcher, or of worker `k` receiving from
`wordchan`, or of worker `k` finishing with the word it holds. -/
inductive Action where
  /-- The dispatcher moves. -/
  | dispatch : Action
  /-- Worker `k` executes the reception of `for word := range wordchan`. -/
  | receive (k : Nat) : Action
  /-- Worker `k` executes `if compound(words, word) { reschan <- word }`. -/
  | report (k : Nat) : Action

/-- The worker is out of its loop. -/
def Worker.isDone : Worker → Bool
  | Worker.done => true
  | _ => false

/-- The next step of the dispatcher, `none` when it is blocked (or has
returned).  With `cap` the capacity of the channels:

* at the head of the loop, `close(wordchan)` when no word is left; otherwise
  `if len(longest) >= len(word) { continue }`, else `j := len(reschan)`;
* in the collecting loop, one reception `candidate := <-reschan` followed by
  `if len(candidate) > len(longest) { longest = candidate }`; at `j = 0` the test
  `if len(longest) < len(word)`;
* `wordchan <- word`, which blocks while the buffer is full;
* `wg.Wait()`, which blocks until every worker is done, then `close(reschan)`
  and the final loop `for candidate := range reschan`, and `return`. -/
def dispatcherStep (cap : Nat) : ParState → Option ParState
  | ParState.mk (Pc.top []) l wc _ rc ws => some (ParState.mk Pc.wait l wc true rc ws)
  | ParState.mk (Pc.top (word :: rest)) l wc cl rc ws =>
    if l.length ≥ word.length then some (ParState.mk (Pc.top rest) l wc cl rc ws)
    else some (ParState.mk (Pc.drain rc.length word rest) l wc cl rc ws)
  | ParState.mk (Pc.drain (_ + 1) _ _) _ _ _ [] _ => none
  | ParState.mk (Pc.drain (j + 1) word rest) l wc cl (candidate :: rc) ws =>
    some (ParState.mk (Pc.drain j word rest) (collectStep l candidate) wc cl rc ws)
  | ParState.mk (Pc.drain 0 word rest) l wc cl rc ws =>
    if l.length < word.length then some (ParState.mk (Pc.send word rest) l wc cl rc ws)
    else some (ParState.mk (Pc.top rest) l wc cl rc ws)
  | ParState.mk (Pc.send word rest) l wc cl rc ws =>
    if wc.length < cap then some (ParState.mk (Pc.top rest) l (wc ++ [word]) cl rc ws)
    else none
  | ParState.mk Pc.wait l wc cl rc ws =>
    if ws.all Worker.isDone then some (ParState.mk Pc.returned (collect l rc) wc cl [] ws)
    else none
  | ParState.mk Pc.returned _ _ _ _ _ => none

/-- Worker `k` at `for word := range wordchan`: it takes the oldest word of the
buffer; on an empty buffer it leaves the loop when the channel is closed and is
blocked otherwise. -/
def receiveStep (k : Nat) : ParState → Option ParState
  | ParState.mk pc l wc cl rc ws =>
    match ws[k]? with
    | some Worker.idle =>
      match wc with
      | word :: wc2 => some (ParState.mk pc l wc2 cl rc (ws.set k (Worker.busy word)))
      | [] => if cl then some (ParState.mk pc l [] cl rc (ws.set k Worker.done)) else none
    | _ => none

/-- Worker `k` at `if compound(words, word) { reschan <- word }`: the sending
blocks while the buffer of `reschan` is full. -/
def reportStep (cap : Nat) (words : List Str) (k : Nat) : ParState → Option ParState
  | ParState.mk pc l wc cl rc ws =>
    match ws[k]? with
    | some (Worker.busy word) =>
      if compound words word then
        if rc.length < cap then some (ParState.mk pc l wc cl (rc ++ [word]) (ws.set k Worker.idle))
        else none
      else some (ParState.mk pc l wc cl rc (ws.set k Worker.idle))
    | _ => none

/-- One step of the execution; `none` when the goroutine named by the action
cannot move. -/
def step (cap : Nat) (words : List Str) (s : ParState) : Action → Option ParState
  | Action.dispatch => dispatcherStep cap s
  | Action.receive k => receiveStep k s
  | Action.report k => reportStep cap words k s

/-- The state reached by the steps of a schedule, in order; `none` when one of
them is not possible. -/
def run (cap : Nat) (words : List Str) : ParState → List Action → Option ParState
  | s, [] => some s
  | s, a :: as =>
    match step cap words s a with
    | some s2 => run cap words s2 as
    | none => none

/-- The state in which `findLongestParal(words)` starts its loop, with `n`
workers (`runtime.NumCPU()`) started: `longest` is `""`, both channels are
empty. -/
def initState (n : Nat) (words : List Str) : ParState :=
  ParState.mk (Pc.top words) [] [] false [] (List.replicate n Worker.idle)

/-- The value returned by `findLongestParal`, when it has returned. -/
def ParState.result : ParState → Option Str
  | ParState.mk Pc.returned l _ _ _ _ => some l
  | _ => none

/-- The string of `k` letters `a`. -/
def asWord (k : Nat) : Str := List.replicate k 0x61

/-- The `m` strings `a...a` of `i`, `i + 1`, ... letters, in this order. -/
def asWords (i m : Nat) : List Str := (List.range m).map (fun j => asWord (i + j))

/-- The sorted list `"a"`, `"aa"`, ... up to `cap + 2` letters: one word that is
not compound and `cap + 1` compound words. -/
def deadlockWords (cap : Nat) : List Str := asWords 1 (cap + 2)

/-- A schedule of `findLongestParal(deadlockWords cap)` with `n + 1` workers,
in which only the first worker and the dispatcher move until the end:

1. the dispatcher sends the first `cap` words (three steps for each: head of
   the loop, empty collecting loop, sending), which fills `wordchan`;
2. the worker receives `"a"`, the dispatcher sends the next word, the worker is
   through with `"a"`, which is not compound;
3. the worker receives `"aa"`, the dispatcher sends the last word, leaves the
   loop, closes `wordchan` and is at `wg.Wait()`;
4. the worker sends `"aa"` on `reschan` and receives the next word, `cap` times;
5. the other workers find `wordchan` closed and empty, and leave. -/
def deadlockSchedule (cap n : Nat) : List Action :=
  (List.replicate cap [Action.dispatch, Action.dispatch, Action.dispatch]).flatten
    ++ [Action.receive 0, Action.dispatch, Action.dispatch, Action.dispatch, Action.report 0]
    ++ [Action.receive 0, Action.dispatch, Action.dispatch, Action.dispatch, Action.dispatch]
    ++ (List.replicate cap [Action.report 0, Action.receive 0]).flatten
    ++ (List.range n).map (fun i => Action.receive (i + 1))

/-- The state in which `deadlockSchedule` ends: the dispatcher at `wg.Wait()`,
`wordchan` closed and empty, `reschan` full, the first worker holding the
longest word, the others gone. -/
def deadlockState (cap n : Nat) : ParState :=
  ParState.mk Pc.wait [] [] true (asWords 2 cap)
    (Worker.busy (asWord (cap + 2)) :: List.replicate n Worker.done)

/-- The words that the loop of the dispatcher has not gone past yet. -/
def Pc.remaining : Pc → List Str
  | Pc.top rest => rest
  | Pc.drain _ word rest => word :: rest
  | Pc.send word rest => word :: rest
  | Pc.wait => []
  | Pc.returned => []

/-- What holds in every state of an execution of `findLongestParal(words)`:

* `longest` is `""` or a compound word of the list, and so is every result
  waiting in `reschan`; every word in `wordchan` or held by a worker is a word
  of the list;
* every compound word that the dispatcher has gone past is matched by a word at
  least as long that is `longest`, or waits in `reschan`, or is compound and
  still in `wordchan` or held by a worker;
* `wordchan` is closed only once the dispatcher is at `wg.Wait()`, a worker is
  gone only once `wordchan` is closed and empty, there is a worker, and on
  return `reschan` is empty and every worker is gone. -/
structure ParInv (words : List Str) (s : ParState) : Prop where
  /-- The variable `longest`. -/
  longest_ok : s.longest = [] ∨ (s.longest ∈ words ∧ compound words s.longest = true)
  /-- The results waiting. -/
  res_ok : ∀ c ∈ s.reschan, c ∈ words ∧ compound words c = true
  /-- The words waiting. -/
  pending_ok : ∀ x, (x ∈ s.wordchan ∨ Worker.busy x ∈ s.workers) → x ∈ words
  /-- The compound words gone past. -/
  cover : ∃ pre, words = pre ++ s.pc.remaining ∧
    ∀ w ∈ pre, compound words w = true →
      ∃ x, w.length ≤ x.length ∧
        (x = s.longest ∨ x ∈ s.reschan ∨
          ((x ∈ s.wordchan ∨ Worker.busy x ∈ s.workers) ∧ compound words x = true))
  /-- After `close(wordchan)`. -/
  closed_ok : s.closed = true → s.pc = Pc.wait ∨ s.pc = Pc.returned
  /-- A worker out of its loop. -/
  done_ok : Worker.done ∈ s.workers → s.closed = true ∧ s.wordchan = []
  /-- At least one worker. -/
  workers_ok : s.workers ≠ []
  /-- After the return. -/
  returned_ok : s.pc = Pc.returned → s.reschan = [] ∧ ∀ w ∈ s.workers, w = Worker.done

/-! ## The byte-wise order is a strict total order -/

theorem strLess_irrefl (a : Str) : strLess a a = false := by
  induction a with
  | nil => rfl
  | cons x xs ih => simp [strLess, ih]

theorem strLess_nil_right (a : Str) : strLess a [] = false := by
  cases a <;> rfl

theorem strLess_trans {a b c : Str} (hab : strLess a b = true) (hbc : strLess b c = true) :
    strLess a c = true := by
  induction a generalizing b c with
  | nil =>
    cases c with
    | nil => simp [strLess_nil_right] at hbc
    | cons z zs => rfl
  | cons x xs ih =>
    cases b with
    | nil => simp [strLess] at hab
    | cons y ys =>
      cases c with
      | nil => simp [strLess] at hbc
      | cons z zs =>
        simp only [strLess, Bool.or_eq_true, Bool.and_eq_true, decide_eq_true_eq] at hab hbc ⊢
        rcases hab with hxy | ⟨hxy, h1⟩
        · rcases hbc with hyz | ⟨hyz, _⟩
          · exact Or.inl (lt_trans hxy hyz)
          · exact Or.inl (hyz ▸ hxy)
        · rcases hbc with hyz | ⟨hyz, h2⟩
          · exact Or.inl (hxy ▸ hyz)
          · exact Or.inr ⟨hxy.trans hyz, ih h1 h2⟩

theorem strLess_trichotomy (a b : Str) :
    strLess a b = true ∨ a = b ∨ strLess b a = true := by
  induction a generalizing b with
  | nil =>
    cases b with
    | nil => exact Or.inr (Or.inl rfl)
    | cons y ys => exact Or.inl rfl
  | cons x xs ih =>
    cases b with
    | nil => exact Or.inr (Or.inr rfl)
    | cons y ys =>
      simp only [strLess, Bool.or_eq_true, Bool.and_eq_true, decide_eq_true_eq, List.cons.injEq]
      rcases Nat.lt_trichotomy x y with h | h | h
      · exact Or.inl (Or.inl h)
      · rcases ih ys with h1 | h1 | h1
        · exact Or.inl (Or.inr ⟨h, h1⟩)
        · exact Or.inr (Or.inl ⟨h, h1⟩)
        · exact Or.inr (Or.inr (Or.inr ⟨h.symm, h1⟩))
      · exact Or.inr (Or.inr (Or.inl h))

theorem strLess_asymm {a b : Str} (hab : strLess a b = true) : strLess b a = false := by
  cases h : strLess b a with
  | false => rfl
  | true =>
    have := strLess_trans hab h
    simp [strLess_irrefl] at this

/-- Antisymmetry of `<=`. -/
theorem str_antisymm {a b : Str} (hab : strLess b a = false) (hba : strLess a b = false) :
    a = b := by
  rcases strLess_trichotomy a b with h | h | h
  · simp [h] at hba
  · exact h
  · simp [h] at hab

/-- Transitivity of `<=`, written with `strLess`: `a <= b` and `b <= c` give `a <= c`. -/
theorem str_le_trans {a b c : Str} (hab : strLess b a = false) (hbc : strLess c b = false) :
    strLess c a = false := by
  cases h : strLess c a with
  | false => rfl
  | true =>
    rcases strLess_trichotomy a b with h1 | h1 | h1
    · have := strLess_trans h h1
      simp [this] at hbc
    · subst h1
      simp [h] at hbc
    · simp [h1] at hab

theorem StrictSorted.sorted {ss : List Str} (h : StrictSorted ss) : Sorted ss :=
  List.Pairwise.imp (fun hab => strLess_asymm hab) h

/-! ## Binary search -/

/-- More fuel than the width of the interval changes nothing: the loop of
`sort.Search` stops after at most `j - i` iterations. -/
theorem searchLoop_fuel (f : Nat → Bool) :
    ∀ (fuel i j : Nat), j - i ≤ fuel → searchLoop f fuel i j = searchLoop f (j - i) i j := by
  intro fuel
  induction fuel using Nat.strong_induction_on with
  | _ fuel ih =>
    intro i j hle
    cases fuel with
    | zero =>
      have : j - i = 0 := by omega
      rw [this]
    | succ n =>
      by_cases hij : i < j
      · obtain ⟨m, hm⟩ : ∃ m, j - i = m + 1 := ⟨j - i - 1, by omega⟩
        rw [hm]
        simp only [searchLoop, hij, if_true]
        by_cases hf : f ((i + j) / 2)
        · simp only [hf, Bool.not_true, Bool.false_eq_true, if_false]
          rw [ih n (by omega) i ((i + j) / 2) (by omega),
            ih m (by omega) i ((i + j) / 2) (by omega)]
        · simp only [hf, Bool.not_false, if_true]
          rw [ih n (by omega) ((i + j) / 2 + 1) j (by omega),
            ih m (by omega) ((i + j) / 2 + 1) j (by omega)]
      · have : j - i = 0 := by omega
        rw [this]
        simp [searchLoop, hij]

/-- Invariant of the loop of `sort.Search`: when `f` is false below `i` and
true from `j` on, the loop ends at an index `r` in `[i, j]` with `f` false
below `r` and true from `r` on (below `n`). -/
theorem searchLoop_spec (f : Nat → Bool) (n : Nat)
    (mono : ∀ a b, a ≤ b → b < n → f a = true → f b = true) :
    ∀ (fuel i j : Nat), j - i ≤ fuel → i ≤ j → j ≤ n →
      (∀ k, k < i → f k = false) → (∀ k, j ≤ k → k < n → f k = true) →
      i ≤ searchLoop f fuel i j ∧ searchLoop f fuel i j ≤ j ∧
      (∀ k, k < searchLoop f fuel i j → f k = false) ∧
      (∀ k, searchLoop f fuel i j ≤ k → k < n → f k = true) := by
  intro fuel
  induction fuel with
  | zero =>
    intro i j hle hij _ hlo hhi
    have : i = j := by omega
    subst this
    exact ⟨le_refl _, le_refl _, hlo, hhi⟩
  | succ m ih =>
    intro i j hle hij hjn hlo hhi
    by_cases hlt : i < j
    · simp only [searchLoop, hlt, if_true]
      by_cases hf : f ((i + j) / 2)
      · simp only [hf, Bool.not_true, Bool.false_eq_true, if_false]
        have := ih i ((i + j) / 2) (by omega) (by omega) (by omega) hlo
          (fun k hk hkn => mono _ _ hk hkn hf)
        exact ⟨this.1, by omega, this.2.2.1, this.2.2.2⟩
      · simp only [hf, Bool.not_false, if_true]
        have hlo2 : ∀ k, k < (i + j) / 2 + 1 → f k = false := by
          intro k hk
          cases hk2 : f k with
          | false => rfl
          | true =>
            have := mono k ((i + j) / 2) (by omega) (by omega) hk2
            exact absurd this hf
        have := ih ((i + j) / 2 + 1) j (by omega) (by omega) hjn hlo2 hhi
        exact ⟨by omega, this.2.1, this.2.2.1, this.2.2.2⟩
    · have : i = j := by omega
      subst this
      simp only [searchLoop, hlt, if_false]
      exact ⟨le_refl _, le_refl _, hlo, hhi⟩

theorem getD_mem {ss : List Str} {i : Nat} (h : i < ss.length) : ss.getD i [] ∈ ss := by
  rw [List.getD_eq_getElem ss [] h]
  exact List.getElem_mem h

/-- In a sorted slice the elements at increasing positions are in order. -/
theorem Sorted.getD_le {ss : List Str} (hs : Sorted ss) {a b : Nat} (hab : a ≤ b)
    (hb : b < ss.length) : strLess (ss.getD b []) (ss.getD a []) = false := by
  rcases Nat.eq_or_lt_of_le hab with h | h
  · subst h
    exact strLess_irrefl _
  · rw [List.getD_eq_getElem ss [] hb, List.getD_eq_getElem ss [] (lt_trans h hb)]
    exact (List.pairwise_iff_getElem.mp hs) a b (lt_trans h hb) hb h

/-- What `sort.SearchStrings` returns on a sorted slice: the leftmost index
whose element is `>= x`, or the length when there is none. -/
theorem SearchStrings_spec {ss : List Str} (hs : Sorted ss) (x : Str) :
    SearchStrings ss x ≤ ss.length ∧
    (∀ k, k < SearchStrings ss x → strLess (ss.getD k []) x = true) ∧
    (∀ k, SearchStrings ss x ≤ k → k < ss.length → strLess (ss.getD k []) x = false) := by
  have mono : ∀ a b, a ≤ b → b < ss.length →
      (fun i => strGE (ss.getD i []) x) a = true → (fun i => strGE (ss.getD i []) x) b = true := by
    intro a b hab hb ha
    simp only [strGE, Bool.not_eq_true'] at ha ⊢
    exact str_le_trans ha (hs.getD_le hab hb)
  have h := searchLoop_spec (fun i => strGE (ss.getD i []) x) ss.length mono ss.length 0
    ss.length (by omega) (by omega) (le_refl _) (fun k hk => absurd hk (Nat.not_lt_zero k))
    (fun k hk hkn => absurd hkn (by omega))
  refine ⟨h.2.1, ?_, ?_⟩
  · intro k hk
    have := h.2.2.1 k hk
    simpa [strGE] using this
  · intro k hk hkn
    have := h.2.2.2 k hk hkn
    simpa [strGE] using this

/-- Whatever the order of the slice, `contains` only reports strings that are
in it. -/
theorem contains_sound {ss : List Str} {s : Str} (h : contains ss s = true) : s ∈ ss := by
  simp only [contains, Bool.and_eq_true, decide_eq_true_eq] at h
  rw [← h.2]
  exact getD_mem h.1

/-- On a sorted slice `contains` finds every string that is in it. -/
theorem contains_complete {ss : List Str} (hs : Sorted ss) {s : Str} (h : s ∈ ss) :
    contains ss s = true := by
  obtain ⟨k, hk, hks⟩ := List.getElem_of_mem h
  have hkD : ss.getD k [] = s := by rw [List.getD_eq_getElem ss [] hk]; exact hks
  obtain ⟨_, hlo, hhi⟩ := SearchStrings_spec hs s
  have hik : SearchStrings ss s ≤ k := by
    by_contra hcon
    have := hlo k (by omega)
    rw [hkD, strLess_irrefl] at this
    exact Bool.false_ne_true this
  have hi : SearchStrings ss s < ss.length := lt_of_le_of_lt hik hk
  have h1 : strLess (ss.getD (SearchStrings ss s) []) s = false := hhi _ (le_refl _) hi
  have h2 : strLess s (ss.getD (SearchStrings ss s) []) = false := by
    have := hs.getD_le hik hk
    rwa [hkD] at this
  simp only [contains, Bool.and_eq_true, decide_eq_true_eq]
  exact ⟨hi, str_antisymm h2 h1⟩

theorem contains_eq_decide {ss : List Str} (hs : Sorted ss) (s : Str) :
    contains ss s = decide (s ∈ ss) := by
  by_cases h : s ∈ ss
  · simp [h, contains_complete hs h]
  · have : contains ss s = false := by
      cases hc : contains ss s with
      | false => rfl
      | true => exact absurd (contains_sound hc) h
    simp [h, this]

/-! ## The `range` loop over a string -/

theorem decoderune_width (s : Str) :
    (decoderune s).2 = 1 ∨ (decoderune s).2 = 2 ∨ (decoderune s).2 = 3 ∨ (decoderune s).2 = 4 := by
  unfold decoderune
  repeat' split
  all_goals try simp
  all_goals
    split_ifs
    all_goals simp

theorem runeWidth_pos (s : Str) : 0 < runeWidth s := by
  cases s with
  | nil => exact Nat.one_pos
  | cons b t =>
    simp only [runeWidth]
    split
    · exact Nat.one_pos
    · rcases decoderune_width (b :: t) with h | h | h | h <;> omega

theorem rangeFrom_nil (fuel off : Nat) : rangeFrom fuel off [] = [] := by
  cases fuel <;> rfl

/-- The `range` loop is over after at most `len(s)` steps: more fuel changes
nothing. -/
theorem rangeFrom_fuel :
    ∀ (f1 f2 off : Nat) (s : Str), s.length ≤ f1 → s.length ≤ f2 →
      rangeFrom f1 off s = rangeFrom f2 off s := by
  intro f1
  induction f1 with
  | zero =>
    intro f2 off s h1 _
    have : s = [] := List.length_eq_zero.mp (by omega)
    subst this
    simp [rangeFrom_nil]
  | succ n ih =>
    intro f2 off s h1 h2
    cases s with
    | nil => simp [rangeFrom_nil]
    | cons b t =>
      cases f2 with
      | zero => simp at h2
      | succ m =>
        have hw := runeWidth_pos (b :: t)
        have hlen : (List.drop (runeWidth (b :: t)) (b :: t)).length ≤ t.length := by
          simp only [List.length_drop, List.length_cons]
          omega
        simp only [List.length_cons] at h1 h2
        simp only [rangeFrom]
        rw [ih m _ _ (by omega) (by omega)]

theorem rangeFrom_shift :
    ∀ (fuel off : Nat) (s : Str),
      rangeFrom fuel off s = (rangeFrom fuel 0 s).map (fun i => i + off) := by
  intro fuel
  induction fuel with
  | zero => intro off s; rfl
  | succ n ih =>
    intro off s
    cases s with
    | nil => rfl
    | cons b t =>
      simp only [rangeFrom, List.map_cons, Nat.zero_add]
      rw [ih (off + runeWidth (b :: t)), ih (runeWidth (b :: t)), List.map_map]
      congr 1
      apply List.map_congr_left
      intro a _
      simp only [Function.comp_apply]
      omega

theorem rangeIndices_nil : rangeIndices [] = [] := rfl

/-- The first offset of a `range` loop is 0; the others are those of the rest of
the string after its first rune, shifted by the width of that rune. -/
theorem rangeIndices_cons (b : Nat) (t : Str) :
    rangeIndices (b :: t) =
      0 :: (rangeIndices ((b :: t).drop (runeWidth (b :: t)))).map
        (fun i => i + runeWidth (b :: t)) := by
  have hw := runeWidth_pos (b :: t)
  have hlen : (List.drop (runeWidth (b :: t)) (b :: t)).length ≤ t.length := by
    simp only [List.length_drop, List.length_cons]
    omega
  unfold rangeIndices
  simp only [List.length_cons, rangeFrom, Nat.zero_add]
  rw [rangeFrom_shift, rangeFrom_fuel t.length _ 0 _ hlen (le_refl _)]

theorem runeCount_nil : runeCount [] = 0 := rfl

theorem runeCount_cons (b : Nat) (t : Str) :
    runeCount (b :: t) = runeCount ((b :: t).drop (runeWidth (b :: t))) + 1 := by
  unfold runeCount
  rw [rangeIndices_cons]
  simp

theorem runeCount_pos {s : Str} (h : s ≠ []) : 0 < runeCount s := by
  cases s with
  | nil => exact absurd rfl h
  | cons b t => rw [runeCount_cons]; omega

/-- A split offset other than 0 lies strictly inside the word, and what is left
after it has strictly fewer runes than the word. -/
theorem rangeIndices_split :
    ∀ (n : Nat) (s : Str), s.length ≤ n → ∀ i ∈ rangeIndices s, i ≠ 0 →
      i < s.length ∧ runeCount (s.drop i) < runeCount s := by
  intro n
  induction n with
  | zero =>
    intro s hs i hi _
    have : s = [] := List.length_eq_zero.mp (by omega)
    subst this
    simp [rangeIndices_nil] at hi
  | succ n ih =>
    intro s hs i hi hi0
    cases s with
    | nil => simp [rangeIndices_nil] at hi
    | cons b t =>
      have hw := runeWidth_pos (b :: t)
      have hlen : (List.drop (runeWidth (b :: t)) (b :: t)).length
          = (b :: t).length - runeWidth (b :: t) := List.length_drop _ _
      rw [rangeIndices_cons] at hi
      rw [runeCount_cons]
      simp only [List.mem_cons, List.mem_map] at hi
      rcases hi with h0 | ⟨k, hk, hki⟩
      · exact absurd h0 hi0
      · have hne : List.drop (runeWidth (b :: t)) (b :: t) ≠ [] := by
          intro hnil
          rw [hnil, rangeIndices_nil] at hk
          simp at hk
        have hpos : 0 < (List.drop (runeWidth (b :: t)) (b :: t)).length :=
          List.length_pos.mpr hne
        have hdrop : List.drop i (b :: t)
            = List.drop k (List.drop (runeWidth (b :: t)) (b :: t)) := by
          rw [List.drop_drop, ← hki, Nat.add_comm]
        rw [hdrop]
        simp only [List.length_cons] at hs hlen ⊢
        by_cases hk0 : k = 0
        · subst hk0
          simp only [List.drop_zero]
          exact ⟨by omega, by omega⟩
        · have := ih _ (by omega) k hk hk0
          exact ⟨by omega, by omega⟩

theorem rangeIndices_lt {s : Str} {i : Nat} (hi : i ∈ rangeIndices s) (hi0 : i ≠ 0) :
    i < s.length :=
  (rangeIndices_split s.length s (le_refl _) i hi hi0).1

theorem runeCount_drop_lt {s : Str} {i : Nat} (hi : i ∈ rangeIndices s) (hi0 : i ≠ 0) :
    runeCount (s.drop i) < runeCount s :=
  (rangeIndices_split s.length s (le_refl _) i hi hi0).2

/-! ## The recursion of `compound` -/

theorem splitLoop_mono (words : List Str) (self1 self2 : Str → Option Bool) (word : Str) :
    ∀ (is : List Nat),
      (∀ i ∈ is, i ≠ 0 → ∀ b, self1 (word.drop i) = some b → self2 (word.drop i) = some b) →
      ∀ b, splitLoop words self1 word is = some b → splitLoop words self2 word is = some b := by
  intro is
  induction is with
  | nil => intro _ b h; exact h
  | cons i is ih =>
    intro hself b h
    have ih2 := ih (fun k hk => hself k (List.mem_cons_of_mem _ hk))
    simp only [splitLoop] at h ⊢
    by_cases hi0 : i = 0
    · simp only [hi0, if_true] at h ⊢
      exact ih2 b h
    · simp only [hi0, if_false] at h ⊢
      by_cases hp : contains words (List.take i word) = true
      · simp only [hp, Bool.not_true, Bool.false_eq_true, if_false] at h ⊢
        by_cases hr : contains words (List.drop i word) = true
        · simp only [hr, if_true] at h ⊢
          exact h
        · simp only [hr, if_false] at h ⊢
          cases h1 : self1 (List.drop i word) with
          | none => simp [h1] at h
          | some c =>
            rw [hself i (List.mem_cons_self _ _) hi0 c h1]
            rw [h1] at h
            cases c with
            | true => exact h
            | false => exact ih2 b h
      · simp only [hp, Bool.not_false, if_true] at h ⊢
        exact ih2 b h

theorem splitLoop_eq_any (words : List Str) (self : Str → Option Bool) (g : Str → Bool)
    (word : Str) :
    ∀ (is : List Nat),
      (∀ i ∈ is, i ≠ 0 → self (word.drop i) = some (g (word.drop i))) →
      splitLoop words self word is = some (is.any (splitOK words g word)) := by
  intro is
  induction is with
  | nil => intro _; rfl
  | cons i is ih =>
    intro hself
    have ih2 := ih (fun k hk => hself k (List.mem_cons_of_mem _ hk))
    simp only [splitLoop, List.any_cons, splitOK]
    by_cases hi0 : i = 0
    · simp only [hi0, if_true]
      rw [ih2]
      simp [splitOK]
    · simp only [hi0, if_false]
      by_cases hp : contains words (List.take i word) = true
      · simp only [hp, Bool.not_true, Bool.false_eq_true, if_false]
        by_cases hr : contains words (List.drop i word) = true
        · simp [hr, hi0]
        · simp only [hr, if_false]
          rw [hself i (List.mem_cons_self _ _) hi0]
          cases hg : g (List.drop i word) with
          | true => simp [hi0]
          | false =>
            simp only [ih2]
            simp [hr, hi0, splitOK]
      · simp only [hp, Bool.not_false, if_true]
        rw [ih2]
        simp [hp, splitOK]

theorem splitLoop_total (words : List Str) (self : Str → Option Bool) (word : Str)
    (is : List Nat) (hself : ∀ i ∈ is, i ≠ 0 → ∃ b, self (word.drop i) = some b) :
    ∃ b, splitLoop words self word is = some b := by
  refine ⟨_, splitLoop_eq_any words self (fun r => (self r).getD false) word is ?_⟩
  intro i hi hi0
  obtain ⟨b, hb⟩ := hself i hi hi0
  simp [hb]

/-- A call of `compound` that has come back with an answer within a budget comes
back with the same answer within any larger budget. -/
theorem compoundAux_mono (words : List Str) :
    ∀ (d : Nat) (word : Str) (b : Bool), compoundAux words d word = some b →
      ∀ d2, d ≤ d2 → compoundAux words d2 word = some b := by
  intro d
  induction d with
  | zero =>
    intro word b h d2 _
    cases d2 with
    | zero => exact h
    | succ m =>
      simp only [compoundAux] at h ⊢
      exact splitLoop_mono words _ _ word _ (fun _ _ _ c hc => by simp at hc) b h
  | succ n ih =>
    intro word b h d2 hd
    cases d2 with
    | zero => omega
    | succ m =>
      simp only [compoundAux] at h ⊢
      exact splitLoop_mono words _ _ word _
        (fun i _ _ c hc => ih (word.drop i) c hc m (by omega)) b h

/-- A budget of `runeCount word - 1` nested calls is enough for `compound` to
come back with an answer. -/
theorem compoundAux_total (words : List Str) :
    ∀ (d : Nat) (word : Str), runeCount word ≤ d + 1 → ∃ b, compoundAux words d word = some b := by
  intro d
  induction d with
  | zero =>
    intro word h
    simp only [compoundAux]
    apply splitLoop_total
    intro i hi hi0
    have h1 := runeCount_drop_lt hi hi0
    have h2 : 0 < runeCount (word.drop i) :=
      runeCount_pos (List.ne_nil_of_length_pos (by
        have := rangeIndices_lt hi hi0
        simp only [List.length_drop]
        omega))
    omega
  | succ n ih =>
    intro word h
    simp only [compoundAux]
    apply splitLoop_total
    intro i hi hi0
    have h1 := runeCount_drop_lt hi hi0
    exact ih (word.drop i) (by omega)

/-- With a budget of at least `runeCount word - 1` nested calls the budgeted
recursion gives the answer of `compound`. -/
theorem compoundAux_eq (words : List Str) (d : Nat) (word : Str) (h : runeCount word ≤ d + 1) :
    compoundAux words d word = some (compound words word) := by
  obtain ⟨b, hb⟩ := compoundAux_total words (runeCount word - 1) word (by omega)
  have h1 := compoundAux_mono words _ word b hb (runeCount word) (by omega)
  have h2 := compoundAux_mono words _ word b hb d (by omega)
  simp only [compound, h1, h2]

/-- The defining equation of `compound`: the loop returns `true` at the first
split offset whose prefix is a word of the list and whose rest is a word of the
list or is compound, and `false` when there is none. -/
theorem compound_eq (words : List Str) (word : Str) :
    compound words word = (rangeIndices word).any (splitOK words (compound words) word) := by
  have h1 := compoundAux_eq words (runeCount word + 1) word (by omega)
  simp only [compoundAux] at h1
  rw [splitLoop_eq_any words _ (compound words) word _
    (fun i hi hi0 => compoundAux_eq words _ _ (by
      have := runeCount_drop_lt hi hi0
      omega))] at h1
  exact (Option.some.inj h1).symm

theorem compound_true_iff (words : List Str) (word : Str) :
    compound words word = true ↔
      ∃ i ∈ rangeIndices word, i ≠ 0 ∧ contains words (word.take i) = true ∧
        (contains words (word.drop i) = true ∨ compound words (word.drop i) = true) := by
  rw [compound_eq, List.any_eq_true]
  simp only [splitOK, Bool.and_eq_true, Bool.or_eq_true, decide_eq_true_eq]

/-! ## Well-formed UTF-8 and concatenation -/

/-- A well-formed rune at the head of `s` lies inside `s` and is decoded in the
same way when more bytes follow `s`. -/
theorem headValid_append (s t : Str) (h : headValid s = true) :
    runeWidth (s ++ t) = runeWidth s ∧ runeWidth s ≤ s.length := by
  cases s with
  | nil => simp [headValid] at h
  | cons b0 rest =>
    simp only [headValid, Bool.or_eq_true, decide_eq_true_eq] at h
    simp only [runeWidth, List.cons_append, List.length_cons]
    by_cases hb : b0 < runeSelf
    · simp only [hb, if_true]
      exact ⟨trivial, by omega⟩
    · simp only [hb, if_false]
      have h1 : 1 < (decoderune (b0 :: rest)).2 := by
        rcases h with h | h
        · exact absurd h hb
        · exact h
      revert h1
      rcases rest with _ | ⟨b1, _ | ⟨b2, _ | ⟨b3, r⟩⟩⟩ <;>
        simp only [decoderune, List.nil_append, List.cons_append, List.length_cons,
          List.length_nil] <;>
        split_ifs <;> simp

/-- After a valid UTF-8 string `p`, followed by more bytes, the `range` loop
stops at the offset `len(p)`: the end of `p` is a rune boundary. -/
theorem length_mem_rangeIndices_append :
    ∀ (n : Nat) (p : Str), p.length ≤ n → validFrom n p = true → ∀ q : Str, q ≠ [] →
      p.length ∈ rangeIndices (p ++ q) := by
  intro n
  induction n with
  | zero =>
    intro p hp _ q hq
    have : p = [] := List.length_eq_zero.mp (by omega)
    subst this
    cases q with
    | nil => exact absurd rfl hq
    | cons c q => simp [rangeIndices_cons]
  | succ n ih =>
    intro p hp hv q hq
    cases p with
    | nil =>
      cases q with
      | nil => exact absurd rfl hq
      | cons c q => simp [rangeIndices_cons]
    | cons b t =>
      simp only [validFrom, Bool.and_eq_true] at hv
      obtain ⟨hw1, hw2⟩ := headValid_append (b :: t) q hv.1
      have hw := runeWidth_pos (b :: t)
      have hcons : (b :: t) ++ q = b :: (t ++ q) := rfl
      rw [hcons, rangeIndices_cons, ← hcons, hw1, List.drop_append_of_le_length hw2]
      have hlen : (List.drop (runeWidth (b :: t)) (b :: t)).length
          = (b :: t).length - runeWidth (b :: t) := List.length_drop _ _
      simp only [List.length_cons] at hp hw2 hlen
      have := ih _ (by omega) hv.2 q hq
      simp only [List.mem_cons, List.mem_map, List.length_cons]
      exact Or.inr ⟨_, this, by omega⟩

theorem length_mem_rangeIndices {p q : Str} (hv : validUTF8 p = true) (hq : q ≠ []) :
    p.length ∈ rangeIndices (p ++ q) :=
  length_mem_rangeIndices_append p.length p (le_refl _) hv q hq

/-- A non-empty list of non-empty strings has a non-empty concatenation. -/
theorem flatten_ne_nil {ps : List Str} (hlen : 1 ≤ ps.length) (hne : ∀ p ∈ ps, p ≠ []) :
    ps.flatten ≠ [] := by
  cases ps with
  | nil => simp at hlen
  | cons p ps =>
    intro h
    simp only [List.flatten_cons, List.append_eq_nil] at h
    exact hne p (List.mem_cons_self _ _) h.1

/-- Soundness of `compound`, whatever the order of the list: a word reported
compound is a concatenation of at least two non-empty members. -/
theorem compound_sound (words : List Str) :
    ∀ (n : Nat) (word : Str), runeCount word ≤ n → compound words word = true →
      IsConcat words word := by
  intro n
  induction n with
  | zero =>
    intro word hn h
    obtain ⟨i, hi, hi0, _⟩ := (compound_true_iff words word).mp h
    have := runeCount_drop_lt hi hi0
    omega
  | succ n ih =>
    intro word hn h
    obtain ⟨i, hi, hi0, hp, hr⟩ := (compound_true_iff words word).mp h
    have hlt := rangeIndices_lt hi hi0
    have hcnt := runeCount_drop_lt hi hi0
    have hpne : word.take i ≠ [] := by
      apply List.ne_nil_of_length_pos
      simp only [List.length_take]
      omega
    have hrne : word.drop i ≠ [] := by
      apply List.ne_nil_of_length_pos
      simp only [List.length_drop]
      omega
    rcases hr with hr | hr
    · refine ⟨[word.take i, word.drop i], by simp, ?_, by simp⟩
      intro p hpm
      simp only [List.mem_cons, List.mem_singleton, List.not_mem_nil, or_false] at hpm
      rcases hpm with rfl | rfl
      · exact ⟨hpne, contains_sound hp⟩
      · exact ⟨hrne, contains_sound hr⟩
    · obtain ⟨parts, hlen, hmem, hcat⟩ := ih (word.drop i) (by omega) hr
      refine ⟨word.take i :: parts, by simp; omega, ?_, by simp [hcat]⟩
      intro p hpm
      simp only [List.mem_cons] at hpm
      rcases hpm with rfl | hpm
      · exact ⟨hpne, contains_sound hp⟩
      · exact hmem p hpm

/-- Completeness of `compound` on a sorted list of valid UTF-8 strings: every
concatenation of at least two non-empty members is reported compound. -/
theorem compound_complete {words : List Str} (hs : Sorted words)
    (hv : ∀ w ∈ words, validUTF8 w = true) :
    ∀ (parts : List Str), 2 ≤ parts.length → (∀ p ∈ parts, p ≠ [] ∧ p ∈ words) →
      compound words parts.flatten = true := by
  intro parts
  induction parts with
  | nil => intro h; simp at h
  | cons p ps ih =>
    intro hlen hmem
    have hp := hmem p (List.mem_cons_self _ _)
    have hps : ∀ q ∈ ps, q ≠ [] ∧ q ∈ words := fun q hq => hmem q (List.mem_cons_of_mem _ hq)
    have hlen1 : 1 ≤ ps.length := by simp only [List.length_cons] at hlen; omega
    have hrest : ps.flatten ≠ [] := flatten_ne_nil hlen1 (fun q hq => (hps q hq).1)
    rw [List.flatten_cons, compound_true_iff]
    refine ⟨p.length, length_mem_rangeIndices (hv p hp.2) hrest, ?_, ?_, ?_⟩
    · exact fun h => hp.1 (List.length_eq_zero.mp h)
    · rw [List.take_left']
      · exact contains_complete hs hp.2
      · rfl
    · rw [List.drop_left']
      · by_cases h2 : 2 ≤ ps.length
        · exact Or.inr (ih h2 hps)
        · left
          cases ps with
          | nil => simp at hlen1
          | cons q qs =>
            cases qs with
            | nil =>
              simp only [List.flatten_cons, List.flatten_nil, List.append_nil]
              exact contains_complete hs (hps q (List.mem_cons_self _ _)).2
            | cons _ _ => simp at h2
      · rfl

/-! ## The scan of `findLongest` -/

theorem findLongestStep_cases (words : List Str) (b x : Str) :
    (findLongestStep words b x = b ∧ (b.length < x.length → compound words x = false)) ∨
    (findLongestStep words b x = x ∧ b.length < x.length ∧ compound words x = true) := by
  unfold findLongestStep
  by_cases h1 : b.length ≥ x.length
  · simp only [h1, if_true]
    exact Or.inl ⟨trivial, fun h => absurd h (by omega)⟩
  · simp only [h1, if_false]
    cases h2 : compound words x with
    | true => exact Or.inr ⟨by simp, by omega, rfl⟩
    | false => exact Or.inl ⟨by simp, fun _ => rfl⟩

/-- The state of the scan after the words of `l`, started with `b`: it is `b` or
a strictly longer compound word of `l`; no compound word of `l` is longer. -/
theorem scan_spec (words : List Str) :
    ∀ (l : List Str) (b : Str),
      (l.foldl (findLongestStep words) b = b ∨
        (l.foldl (findLongestStep words) b ∈ l ∧
          compound words (l.foldl (findLongestStep words) b) = true ∧
          b.length < (l.foldl (findLongestStep words) b).length)) ∧
      (∀ w ∈ l, compound words w = true →
        w.length ≤ (l.foldl (findLongestStep words) b).length) := by
  intro l
  induction l with
  | nil => intro b; simp
  | cons x l ih =>
    intro b
    simp only [List.foldl_cons]
    obtain ⟨h1, h2⟩ := ih (findLongestStep words b x)
    have hlen : (findLongestStep words b x).length
        ≤ (l.foldl (findLongestStep words) (findLongestStep words b x)).length := by
      rcases h1 with h | h
      · rw [h]
      · omega
    rcases findLongestStep_cases words b x with ⟨hb, hc⟩ | ⟨hb, hlt, hc⟩
    · rw [hb] at h1 h2 hlen ⊢
      refine ⟨?_, ?_⟩
      · rcases h1 with h | ⟨h, h3, h4⟩
        · exact Or.inl h
        · exact Or.inr ⟨List.mem_cons_of_mem _ h, h3, h4⟩
      · intro w hw hcw
        rcases List.mem_cons.mp hw with rfl | hw
        · by_contra hcon
          have := hc (by omega)
          rw [this] at hcw
          exact Bool.false_ne_true hcw
        · exact h2 w hw hcw
    · rw [hb] at h1 h2 hlen ⊢
      refine ⟨Or.inr ?_, ?_⟩
      · rcases h1 with h | ⟨h, h3, h4⟩
        · rw [h]
          exact ⟨List.mem_cons_self _ _, hc, hlt⟩
        · exact ⟨List.mem_cons_of_mem _ h, h3, by omega⟩
      · intro w hw hcw
        rcases List.mem_cons.mp hw with rfl | hw
        · exact hlen
        · exact h2 w hw hcw

/-- Ties in the scan of a strictly sorted list: a compound word of `l` as long
as the final state is not below it in the order, unless that state is still the
initial one. -/
theorem scan_first (words : List Str) :
    ∀ (l : List Str) (b : Str), StrictSorted l →
      ∀ w ∈ l, compound words w = true →
        w.length = (l.foldl (findLongestStep words) b).length →
        l.foldl (findLongestStep words) b = b ∨
          strLess w (l.foldl (findLongestStep words) b) = false := by
  intro l
  induction l with
  | nil => intro b _ w hw; simp at hw
  | cons x l ih =>
    intro b hs w hw hcw hlen
    simp only [List.foldl_cons] at hlen ⊢
    have hs2 := List.pairwise_cons.mp hs
    obtain ⟨h1, _⟩ := scan_spec words l (findLongestStep words b x)
    rcases List.mem_cons.mp hw with rfl | hw
    · rcases findLongestStep_cases words b w with ⟨hb, hc⟩ | ⟨hb, hlt, hc⟩
      · rw [hb] at h1 hlen ⊢
        rcases h1 with h | ⟨_, _, h4⟩
        · exact Or.inl h
        · have := hc (by omega)
          rw [this] at hcw
          exact absurd hcw Bool.false_ne_true
      · rw [hb] at h1 hlen ⊢
        rcases h1 with h | ⟨_, _, h4⟩
        · rw [h]
          exact Or.inr (strLess_irrefl _)
        · omega
    · rcases ih (findLongestStep words b x) hs2.2 w hw hcw hlen with h | h
      · rcases findLongestStep_cases words b x with ⟨hb, _⟩ | ⟨hb, _, _⟩
        · rw [hb] at h ⊢
          exact Or.inl h
        · rw [hb] at h ⊢
          rw [h]
          exact Or.inr (strLess_asymm (hs2.1 w hw))
      · exact Or.inr h

theorem compound_nil (words : List Str) : compound words [] = false := by
  rw [compound_eq, rangeIndices_nil]
  rfl


theorem any_eq_of_forall_mem {l : List Nat} {f g : Nat → Bool} (h : ∀ i ∈ l, f i = g i) :
    l.any f = l.any g := by
  induction l with
  | nil => rfl
  | cons x l ih =>
    simp only [List.any_cons]
    rw [h x (List.mem_cons_self _ _), ih (fun i hi => h i (List.mem_cons_of_mem _ hi))]

/-- When two lists have the same non-empty members according to `contains`,
`compound` gives the same answer on both. -/
theorem compound_congr {ws1 ws2 : List Str}
    (h : ∀ s : Str, s ≠ [] → contains ws1 s = contains ws2 s) :
    ∀ (n : Nat) (word : Str), runeCount word ≤ n → compound ws1 word = compound ws2 word := by
  intro n
  induction n with
  | zero =>
    intro word hn
    have : word = [] := by
      by_contra hne
      have := runeCount_pos hne
      omega
    subst this
    rw [compound_nil, compound_nil]
  | succ n ih =>
    intro word hn
    rw [compound_eq ws1, compound_eq ws2]
    apply any_eq_of_forall_mem
    intro i hi
    by_cases hi0 : i = 0
    · simp [splitOK, hi0]
    · have hlt := rangeIndices_lt hi hi0
      have hcnt := runeCount_drop_lt hi hi0
      have hpne : word.take i ≠ [] := by
        apply List.ne_nil_of_length_pos
        simp only [List.length_take]
        omega
      have hrne : word.drop i ≠ [] := by
        apply List.ne_nil_of_length_pos
        simp only [List.length_drop]
        omega
      simp only [splitOK]
      rw [h _ hpne, h _ hrne, ih (word.drop i) (by omega)]

theorem take_ne_nil {word : Str} {i : Nat} (hi0 : i ≠ 0) (hlt : i < word.length) :
    word.take i ≠ [] := by
  apply List.ne_nil_of_length_pos
  simp only [List.length_take]
  omega

theorem drop_ne_nil {word : Str} {i : Nat} (hlt : i < word.length) : word.drop i ≠ [] := by
  apply List.ne_nil_of_length_pos
  simp only [List.length_drop]
  omega

/-- In a strictly sorted list the positions follow the order of the strings. -/
theorem index_le_of_strictSorted {l : List Str} (hs : StrictSorted l) {a b : Str}
    (hab : strLess b a = false) {i j : Nat} (hi : l[i]? = some a) (hj : l[j]? = some b) :
    i ≤ j := by
  by_contra hcon
  obtain ⟨hil, hia⟩ := List.getElem?_eq_some.mp hi
  obtain ⟨hjl, hjb⟩ := List.getElem?_eq_some.mp hj
  have := (List.pairwise_iff_getElem.mp hs) j i hjl hil (by omega)
  rw [hia, hjb, hab] at this
  exact Bool.false_ne_true this

/-- What `findLongest` returns: `""` when no member is compound, and otherwise a
compound member that no compound member exceeds in length. -/
theorem findLongest_spec (words : List Str) :
    ((∀ w ∈ words, compound words w = false) → findLongest words = []) ∧
    ((∃ w ∈ words, compound words w = true) →
      findLongest words ∈ words ∧ compound words (findLongest words) = true ∧
      ∀ w ∈ words, compound words w = true → w.length ≤ (findLongest words).length) := by
  obtain ⟨h1, h2⟩ := scan_spec words words []
  refine ⟨?_, ?_⟩
  · intro hnone
    rcases h1 with h | ⟨hm, hc, _⟩
    · exact h
    · rw [hnone _ hm] at hc
      exact absurd hc Bool.false_ne_true
  · rintro ⟨w, hw, hcw⟩
    have hwne : w ≠ [] := by
      rintro rfl
      rw [compound_nil] at hcw
      exact Bool.false_ne_true hcw
    have hpos : 0 < w.length := List.length_pos.mpr hwne
    have hle := h2 w hw hcw
    rcases h1 with h | ⟨hm, hc, _⟩
    · unfold findLongest
      rw [h] at hle
      simp only [List.length_nil] at hle
      omega
    · exact ⟨hm, hc, h2⟩

/-- A string of at most one rune has no split offset other than 0. -/
theorem rangeIndices_eq_zero_of_runeCount_le_one {word : Str} (h : runeCount word ≤ 1) :
    ∀ i ∈ rangeIndices word, i = 0 := by
  intro i hi
  by_contra hi0
  have h1 := runeCount_drop_lt hi hi0
  have h2 := runeCount_pos (drop_ne_nil (rangeIndices_lt hi hi0))
  omega

/-- Removing the empty strings from a sorted list changes no answer of
`compound`. -/
theorem compound_filter_nonempty {words : List Str} (hs : Sorted words) (word : Str) :
    compound words word = compound (words.filter (fun w => decide (w ≠ []))) word := by
  apply compound_congr _ (runeCount word) word (le_refl _)
  intro s hs0
  rw [contains_eq_decide hs, contains_eq_decide (List.Pairwise.filter _ hs)]
  simp [List.mem_filter, hs0]

/-! ## Small lists and the empty string -/

/-- A word is not compound in the list that has no other member. -/
theorem compound_singleton (w : Str) : compound [w] w = false := by
  cases hc : compound [w] w with
  | false => rfl
  | true =>
    obtain ⟨i, hi, hi0, hp, _⟩ := (compound_true_iff _ _).mp hc
    have hlt := rangeIndices_lt hi hi0
    have hmem := contains_sound hp
    simp only [List.mem_singleton] at hmem
    have := congrArg List.length hmem
    simp only [List.length_take] at this
    omega

/-- Every string is `>=` the empty string, so the binary search for `""` ends
at index 0, whatever the slice. -/
theorem SearchStrings_nil (ss : List Str) : SearchStrings ss [] = 0 := by
  have h := searchLoop_spec (fun i => strGE (ss.getD i []) []) ss.length
    (fun _ _ _ _ _ => by simp [strGE, strLess_nil_right]) ss.length 0 ss.length
    (by omega) (by omega) (le_refl _) (fun k hk => absurd hk (Nat.not_lt_zero k))
    (fun k hk hkn => absurd hkn (by omega))
  by_contra hne
  have := h.2.2.1 0 (Nat.pos_of_ne_zero hne)
  simp [strGE, strLess_nil_right] at this

/-- Whatever the slice, `contains(ss, "")` tells whether the slice starts with
the empty string. -/
theorem contains_nil_iff_head (ss : List Str) :
    contains ss [] = true ↔ ss.head? = some [] := by
  simp only [contains, SearchStrings_nil, Bool.and_eq_true, decide_eq_true_eq]
  cases ss with
  | nil => simp
  | cons x t => simp

/-! ## Larger lists -/

/-- When every string found in the first list is found in the second, every
word compound in the first list is compound in the second. -/
theorem compound_mono {ws1 ws2 : List Str}
    (h : ∀ s : Str, contains ws1 s = true → contains ws2 s = true) :
    ∀ (n : Nat) (word : Str), runeCount word ≤ n → compound ws1 word = true →
      compound ws2 word = true := by
  intro n
  induction n with
  | zero =>
    intro word hn hc
    obtain ⟨i, hi, hi0, _⟩ := (compound_true_iff ws1 word).mp hc
    have := runeCount_drop_lt hi hi0
    omega
  | succ n ih =>
    intro word hn hc
    obtain ⟨i, hi, hi0, hp, hr⟩ := (compound_true_iff ws1 word).mp hc
    have hcnt := runeCount_drop_lt hi hi0
    refine (compound_true_iff ws2 word).mpr ⟨i, hi, hi0, h _ hp, ?_⟩
    rcases hr with hr | hr
    · exact Or.inl (h _ hr)
    · exact Or.inr (ih (word.drop i) (by omega) hr)

/-- The scan never ends with a shorter word than it started with. -/
theorem scan_length_le (words : List Str) (l : List Str) (b : Str) :
    b.length ≤ (l.foldl (findLongestStep words) b).length := by
  rcases (scan_spec words l b).1 with h | ⟨_, _, h⟩
  · rw [h]
  · omega

/-! ## The collection of results -/

theorem collectStep_cases (b c : Str) :
    (collectStep b c = b ∧ c.length ≤ b.length) ∨ (collectStep b c = c ∧ b.length < c.length) := by
  unfold collectStep
  split_ifs with h
  · exact Or.inr ⟨rfl, h⟩
  · exact Or.inl ⟨rfl, by omega⟩

theorem collect_length (cs : List Str) :
    ∀ b : Str, (collect b cs).length = max b.length (maxLength cs) := by
  induction cs with
  | nil => intro b; simp [collect, maxLength]
  | cons c cs ih =>
    intro b
    have h1 : collect b (c :: cs) = collect (collectStep b c) cs := rfl
    have h2 : maxLength (c :: cs) = max c.length (maxLength cs) := rfl
    rw [h1, h2, ih]
    rcases collectStep_cases b c with ⟨h, hl⟩ | ⟨h, hl⟩
    · rw [h]
      simp only [Nat.max_def]
      split_ifs <;> omega
    · rw [h]
      simp only [Nat.max_def]
      split_ifs <;> omega

theorem collect_mem (cs : List Str) : ∀ b : Str, collect b cs = b ∨ collect b cs ∈ cs := by
  induction cs with
  | nil => intro b; exact Or.inl rfl
  | cons c cs ih =>
    intro b
    have h1 : collect b (c :: cs) = collect (collectStep b c) cs := rfl
    rw [h1]
    rcases ih (collectStep b c) with h | h
    · rw [h]
      rcases collectStep_cases b c with ⟨h2, _⟩ | ⟨h2, _⟩
      · exact Or.inl h2
      · exact Or.inr (by rw [h2]; exact List.mem_cons_self _ _)
    · exact Or.inr (List.mem_cons_of_mem _ h)

theorem maxLength_perm {cs1 cs2 : List Str} (hp : cs1.Perm cs2) :
    maxLength cs1 = maxLength cs2 := by
  induction hp with
  | nil => rfl
  | cons x _ ih =>
    show max x.length (maxLength _) = max x.length (maxLength _)
    rw [ih]
  | swap x y l =>
    show max y.length (max x.length (maxLength l)) = max x.length (max y.length (maxLength l))
    simp only [Nat.max_def]
    split_ifs <;> omega
  | trans _ _ ih1 ih2 => exact ih1.trans ih2

/-! ## Repetitions in a sorted list -/

theorem findLongestStep_idem (words : List Str) (b x : Str) :
    findLongestStep words (findLongestStep words b x) x = findLongestStep words b x := by
  rcases findLongestStep_cases words b x with ⟨hb, hc⟩ | ⟨hb, _, _⟩
  · rw [hb, hb]
  · rw [hb]
    simp [findLongestStep]

theorem scan_removeConsecutiveDuplicates (words : List Str) :
    ∀ (l : List Str) (b : Str),
      (removeConsecutiveDuplicates l).foldl (findLongestStep words) b
        = l.foldl (findLongestStep words) b := by
  intro l
  induction l with
  | nil => intro b; rfl
  | cons x l ih =>
    intro b
    cases l with
    | nil => rfl
    | cons y t =>
      by_cases hxy : x = y
      · subst hxy
        simp only [removeConsecutiveDuplicates, if_true]
        rw [ih b]
        simp only [List.foldl_cons, findLongestStep_idem]
      · simp only [removeConsecutiveDuplicates, hxy, if_false]
        rw [List.foldl_cons, ih (findLongestStep words b x)]
        rfl

theorem removeConsecutiveDuplicates_sublist :
    ∀ l : List Str, (removeConsecutiveDuplicates l).Sublist l := by
  intro l
  induction l with
  | nil => exact List.Sublist.refl _
  | cons x l ih =>
    cases l with
    | nil => exact List.Sublist.refl _
    | cons y t =>
      by_cases hxy : x = y
      · simp only [removeConsecutiveDuplicates, hxy, if_true]
        exact List.Sublist.cons _ (hxy ▸ ih)
      · simp only [removeConsecutiveDuplicates, hxy, if_false]
        exact List.Sublist.cons₂ _ ih

theorem mem_removeConsecutiveDuplicates (s : Str) :
    ∀ l : List Str, s ∈ removeConsecutiveDuplicates l ↔ s ∈ l := by
  intro l
  induction l with
  | nil => exact Iff.rfl
  | cons x l ih =>
    cases l with
    | nil => exact Iff.rfl
    | cons y t =>
      by_cases hxy : x = y
      · subst hxy
        simp only [removeConsecutiveDuplicates, if_true, ih, List.mem_cons]
        tauto
      · simp only [removeConsecutiveDuplicates, hxy, if_false, List.mem_cons] at ih ⊢
        rw [ih]

/-- Without its repetitions a sorted list is strictly sorted. -/
theorem removeConsecutiveDuplicates_strictSorted :
    ∀ l : List Str, Sorted l → StrictSorted (removeConsecutiveDuplicates l) := by
  intro l
  induction l with
  | nil => intro _; exact List.Pairwise.nil
  | cons x l ih =>
    intro hs
    have hs2 := List.pairwise_cons.mp hs
    cases l with
    | nil => exact List.pairwise_singleton _ _
    | cons y t =>
      by_cases hxy : x = y
      · simp only [removeConsecutiveDuplicates, hxy, if_true]
        exact ih hs2.2
      · simp only [removeConsecutiveDuplicates, hxy, if_false]
        refine List.pairwise_cons.mpr ⟨?_, ih hs2.2⟩
        intro z hz
        have hz2 : z ∈ y :: t := (mem_removeConsecutiveDuplicates z (y :: t)).mp hz
        have hxz : strLess z x = false := hs2.1 z hz2
        have hxy2 : strLess y x = false := hs2.1 y (List.mem_cons_self _ _)
        have hyz : strLess z y = false := by
          rcases List.mem_cons.mp hz2 with rfl | hzt
          · exact strLess_irrefl _
          · exact (List.pairwise_cons.mp hs2.2).1 z hzt
        rcases strLess_trichotomy x z with h | h | h
        · exact h
        · subst h
          exact absurd (str_antisymm hxy2 hyz) hxy
        · rw [h] at hxz
          exact absurd hxz (by simp)

/-! ## The words `a`, `aa`, `aaa`, ... -/

theorem asWord_succ (k : Nat) : asWord (k + 1) = 0x61 :: asWord k := rfl

theorem length_asWord (k : Nat) : (asWord k).length = k := by
  simp [asWord]

theorem strLess_asWord : ∀ (i j : Nat), i < j → strLess (asWord i) (asWord j) = true := by
  intro i
  induction i with
  | zero =>
    intro j hj
    obtain ⟨m, rfl⟩ : ∃ m, j = m + 1 := ⟨j - 1, by omega⟩
    rfl
  | succ i ih =>
    intro j hj
    obtain ⟨m, rfl⟩ : ∃ m, j = m + 1 := ⟨j - 1, by omega⟩
    rw [asWord_succ, asWord_succ]
    simp [strLess, ih m (by omega)]

theorem asWords_succ_left (i m : Nat) : asWords i (m + 1) = asWord i :: asWords (i + 1) m := by
  simp only [asWords, List.range_succ_eq_map, List.map_cons, List.map_map, Nat.add_zero]
  congr 1
  apply List.map_congr_left
  intro j _
  simp only [Function.comp_apply]
  congr 1
  omega

theorem asWords_succ_right (i m : Nat) : asWords i (m + 1) = asWords i m ++ [asWord (i + m)] := by
  simp [asWords, List.range_succ]

theorem length_asWords (i m : Nat) : (asWords i m).length = m := by
  simp [asWords]

theorem mem_asWords {i m : Nat} {w : Str} : w ∈ asWords i m ↔ ∃ j, j < m ∧ w = asWord (i + j) := by
  simp only [asWords, List.mem_map, List.mem_range]
  constructor
  · rintro ⟨j, hj, rfl⟩
    exact ⟨j, hj, rfl⟩
  · rintro ⟨j, hj, rfl⟩
    exact ⟨j, hj, rfl⟩

theorem strictSorted_asWords (i m : Nat) : StrictSorted (asWords i m) := by
  unfold StrictSorted asWords
  rw [List.pairwise_map]
  exact List.Pairwise.imp (fun hab => strLess_asWord _ _ (by omega)) (List.pairwise_lt_range m)

theorem compound_eq_false_of_runeCount_le_one (words : List Str) {word : Str}
    (h : runeCount word ≤ 1) : compound words word = false := by
  rw [compound_eq]
  apply List.any_eq_false.mpr
  intro i hi
  simp [splitOK, rangeIndices_eq_zero_of_runeCount_le_one h i hi]

/-- The word `"a"` is not compound, whatever the list. -/
theorem compound_asWord_one (words : List Str) : compound words (asWord 1) = false :=
  compound_eq_false_of_runeCount_le_one words (by decide)

/-- In the list `"a"`, `"aa"`, ... of `m` words, every word of two letters or
more is compound: it is `"a"` followed by the word before it. -/
theorem compound_asWord {m k : Nat} (h2 : 2 ≤ k) (hm : k ≤ m) :
    compound (asWords 1 m) (asWord k) = true := by
  obtain ⟨j, rfl⟩ : ∃ j, k = j + 2 := ⟨k - 2, by omega⟩
  have hs : Sorted (asWords 1 m) := (strictSorted_asWords 1 m).sorted
  have hw : runeWidth (0x61 :: asWord (j + 1)) = 1 := by
    simp [runeWidth, runeSelf]
  have hidx : 1 ∈ rangeIndices (asWord (j + 2)) := by
    rw [asWord_succ, rangeIndices_cons, hw, List.drop_one, List.tail_cons, asWord_succ,
      rangeIndices_cons]
    simp
  rw [compound_true_iff]
  refine ⟨1, hidx, by omega, ?_, Or.inl ?_⟩
  · apply contains_complete hs
    exact mem_asWords.mpr ⟨0, by omega, by simp [asWord]⟩
  · apply contains_complete hs
    exact mem_asWords.mpr ⟨j, by omega, by
      rw [asWord_succ, List.drop_one, List.tail_cons]
      congr 1
      omega⟩

/-! ## Executions of the parallel selector -/

theorem run_append (cap : Nat) (words : List Str) :
    ∀ (as bs : List Action) (s : ParState),
      run cap words s (as ++ bs) = (run cap words s as).bind (fun s2 => run cap words s2 bs) := by
  intro as
  induction as with
  | nil => intro bs s; rfl
  | cons a as ih =>
    intro bs s
    simp only [List.cons_append, run]
    cases step cap words s a with
    | none => rfl
    | some s2 => exact ih bs s2

/-- With `longest` still `""`, nothing to collect and room in `wordchan`, the
dispatcher sends the next word in three steps. -/
theorem run_dispatch_one (cap : Nat) (words : List Str) (w : Str) (rest wc : List Str)
    (cl : Bool) (wk : List Worker) (hw : 0 < w.length) (hwc : wc.length < cap) :
    run cap words (ParState.mk (Pc.top (w :: rest)) [] wc cl [] wk)
        [Action.dispatch, Action.dispatch, Action.dispatch]
      = some (ParState.mk (Pc.top rest) [] (wc ++ [w]) cl [] wk) := by
  have h1 : ¬ (w.length = 0) := by omega
  simp [run, step, dispatcherStep, h1, hw, hwc]

theorem run_dispatch_many (cap : Nat) (words : List Str) (rest : List Str) (wk : List Worker) :
    ∀ (ws wc : List Str), (∀ w ∈ ws, 0 < w.length) → wc.length + ws.length ≤ cap →
      run cap words (ParState.mk (Pc.top (ws ++ rest)) [] wc false [] wk)
          (List.replicate ws.length
            [Action.dispatch, Action.dispatch, Action.dispatch]).flatten
        = some (ParState.mk (Pc.top rest) [] (wc ++ ws) false [] wk) := by
  intro ws
  induction ws with
  | nil => intro wc _ _; simp [run]
  | cons w ws ih =>
    intro wc hpos hlen
    simp only [List.length_cons] at hlen
    have hsched : (List.replicate (w :: ws).length
          [Action.dispatch, Action.dispatch, Action.dispatch]).flatten
        = [Action.dispatch, Action.dispatch, Action.dispatch]
          ++ (List.replicate ws.length
            [Action.dispatch, Action.dispatch, Action.dispatch]).flatten := by
      simp [List.replicate_succ]
    rw [hsched, List.cons_append, run_append, run_dispatch_one cap words w _ wc false wk
      (hpos w (List.mem_cons_self _ _)) (by omega)]
    simp only [Option.some_bind]
    rw [ih (wc ++ [w]) (fun x hx => hpos x (List.mem_cons_of_mem _ hx))
      (by simp only [List.length_append, List.length_singleton]; omega)]
    simp

/-- The first worker sends the compound word it holds on `reschan`, which has
room, and receives the next word. -/
theorem run_report_receive (cap : Nat) (words : List Str) (pc : Pc) (l w0 w1 : Str)
    (wc rc : List Str) (cl : Bool) (others : List Worker)
    (hc : compound words w0 = true) (hrc : rc.length < cap) :
    run cap words (ParState.mk pc l (w1 :: wc) cl rc (Worker.busy w0 :: others))
        [Action.report 0, Action.receive 0]
      = some (ParState.mk pc l wc cl (rc ++ [w0]) (Worker.busy w1 :: others)) := by
  simp [run, step, reportStep, receiveStep, hc, hrc]

theorem run_fill (cap : Nat) (words : List Str) (l wl : Str) (tl : List Str)
    (others : List Worker) :
    ∀ (ws : List Str) (w0 : Str) (rc : List Str),
      (∀ w ∈ w0 :: ws, compound words w = true) → rc.length + ws.length + 1 ≤ cap →
      run cap words
          (ParState.mk Pc.wait l (ws ++ wl :: tl) true rc (Worker.busy w0 :: others))
          (List.replicate (ws.length + 1) [Action.report 0, Action.receive 0]).flatten
        = some (ParState.mk Pc.wait l tl true (rc ++ w0 :: ws) (Worker.busy wl :: others)) := by
  intro ws
  induction ws with
  | nil =>
    intro w0 rc hc hlen
    simp only [List.length_nil, Nat.add_zero] at hlen
    have := run_report_receive cap words Pc.wait l w0 wl tl rc true others
      (hc w0 (List.mem_cons_self _ _)) (by omega)
    simpa using this
  | cons w ws ih =>
    intro w0 rc hc hlen
    simp only [List.length_cons] at hlen
    have hsched : (List.replicate ((w :: ws).length + 1)
          [Action.report 0, Action.receive 0]).flatten
        = [Action.report 0, Action.receive 0]
          ++ (List.replicate (ws.length + 1) [Action.report 0, Action.receive 0]).flatten := by
      simp [List.replicate_succ]
    rw [hsched, List.cons_append, run_append,
      run_report_receive cap words Pc.wait l w0 w (ws ++ wl :: tl) rc true others
        (hc w0 (List.mem_cons_self _ _)) (by omega)]
    simp only [Option.some_bind]
    rw [ih w (rc ++ [w0]) (fun x hx => hc x (List.mem_cons_of_mem _ hx))
      (by simp only [List.length_append, List.length_singleton]; omega)]
    simp

/-- The workers that have not moved find `wordchan` closed and empty, and leave
their loop one after the other. -/
theorem run_leave (cap : Nat) (words : List Str) (pc : Pc) (l : Str) (rc : List Str) :
    ∀ (m : Nat) (pre : List Worker),
      run cap words (ParState.mk pc l [] true rc (pre ++ List.replicate m Worker.idle))
          ((List.range m).map (fun i => Action.receive (i + pre.length)))
        = some (ParState.mk pc l [] true rc (pre ++ List.replicate m Worker.done)) := by
  intro m
  induction m with
  | zero => intro pre; rfl
  | succ m ih =>
    intro pre
    have hget : (pre ++ Worker.idle :: List.replicate m Worker.idle)[pre.length]?
        = some Worker.idle := by
      rw [List.getElem?_append_right (le_refl _)]
      simp
    have hset : (pre ++ Worker.idle :: List.replicate m Worker.idle).set pre.length Worker.done
        = (pre ++ [Worker.done]) ++ List.replicate m Worker.idle := by
      rw [List.set_append_right _ _ (le_refl _)]
      simp
    have hstep : step cap words
        (ParState.mk pc l [] true rc (pre ++ Worker.idle :: List.replicate m Worker.idle))
        (Action.receive (0 + pre.length))
        = some (ParState.mk pc l [] true rc
            ((pre ++ [Worker.done]) ++ List.replicate m Worker.idle)) := by
      simp only [step, receiveStep, Nat.zero_add, hget, hset, if_true]
    have hmap : (List.range (m + 1)).map (fun i => Action.receive (i + pre.length))
        = Action.receive (0 + pre.length)
          :: (List.range m).map (fun i => Action.receive (i + (pre ++ [Worker.done]).length)) := by
      rw [List.range_succ_eq_map, List.map_cons, List.map_map]
      congr 1
      apply List.map_congr_left
      intro i _
      simp only [Function.comp_apply, List.length_append, List.length_singleton]
      congr 1
      omega
    rw [hmap, List.replicate_succ]
    simp only [run, hstep]
    rw [ih (pre ++ [Worker.done])]
    simp [List.replicate_succ]

/-- A state in which the dispatcher is at `wg.Wait()`, `reschan` is full, one
worker holds a compound word and the others are gone, has no step at all. -/
theorem step_none_of_full (cap : Nat) (words : List Str) (l w : Str) (wc rc : List Str)
    (cl : Bool) (n : Nat) (hc : compound words w = true) (hrc : cap ≤ rc.length) :
    ∀ a : Action,
      step cap words
        (ParState.mk Pc.wait l wc cl rc (Worker.busy w :: List.replicate n Worker.done)) a
        = none := by
  intro a
  cases a with
  | dispatch => simp [step, dispatcherStep, Worker.isDone]
  | receive k =>
    cases k with
    | zero => simp [step, receiveStep]
    | succ k =>
      simp only [step, receiveStep, List.getElem?_cons_succ, List.getElem?_replicate]
      split_ifs <;> rfl
  | report k =>
    cases k with
    | zero =>
      have : ¬ rc.length < cap := by omega
      simp [step, reportStep, hc, this]
    | succ k =>
      simp only [step, reportStep, List.getElem?_cons_succ, List.getElem?_replicate]
      split_ifs <;> rfl

theorem run_cons_of_step (cap : Nat) (words : List Str) {s s2 : ParState} {a : Action}
    (h : step cap words s a = some s2) (as : List Action) :
    run cap words s (a :: as) = run cap words s2 as := by
  simp only [run, h]

/-- The first worker, idle, receives the oldest word of `wordchan`. -/
theorem step_receive_first (cap : Nat) (words : List Str) (pc : Pc) (l w : Str)
    (wc rc : List Str) (cl : Bool) (others : List Worker) :
    step cap words (ParState.mk pc l (w :: wc) cl rc (Worker.idle :: others)) (Action.receive 0)
      = some (ParState.mk pc l wc cl rc (Worker.busy w :: others)) := by
  simp [step, receiveStep]

theorem asWords_append_last (i m : Nat) :
    asWords i m ++ [asWord (m + i)] = asWord i :: asWords (i + 1) m := by
  rw [← asWords_succ_left, asWords_succ_right, Nat.add_comm m i]

theorem deadlockWords_eq (c : Nat) :
    deadlockWords (c + 1)
      = asWords 1 (c + 1) ++ [asWord (c + 2), asWord (c + 3)] := by
  unfold deadlockWords
  rw [asWords_succ_right 1 (c + 1 + 1), asWords_succ_right 1 (c + 1), List.append_assoc]
  have h1 : 1 + (c + 1) = c + 2 := by omega
  have h2 : 1 + (c + 1 + 1) = c + 3 := by omega
  rw [h1, h2]
  rfl

theorem compound_deadlockWords {c k : Nat} (h2 : 2 ≤ k) (hk : k ≤ c + 3) :
    compound (deadlockWords (c + 1)) (asWord k) = true :=
  compound_asWord h2 hk

/-- The schedule `deadlockSchedule` is an execution of `findLongestParal` on
`deadlockWords`, whatever the capacity `c + 1` of the channels and the number
`n + 1` of workers, and it ends in `deadlockState`. -/
theorem run_deadlockSchedule (c n : Nat) :
    run (c + 1) (deadlockWords (c + 1)) (initState (n + 1) (deadlockWords (c + 1)))
        (deadlockSchedule (c + 1) n)
      = some (deadlockState (c + 1) n) := by
  have hinit : initState (n + 1) (deadlockWords (c + 1))
      = ParState.mk (Pc.top (asWords 1 (c + 1) ++ [asWord (c + 2), asWord (c + 3)])) [] []
          false [] (Worker.idle :: List.replicate n Worker.idle) := by
    simp only [initState, deadlockWords_eq, List.replicate_succ]
  have h1 : run (c + 1) (deadlockWords (c + 1))
      (ParState.mk (Pc.top (asWords 1 (c + 1) ++ [asWord (c + 2), asWord (c + 3)])) [] []
          false [] (Worker.idle :: List.replicate n Worker.idle))
      (List.replicate (c + 1) [Action.dispatch, Action.dispatch, Action.dispatch]).flatten
      = some (ParState.mk (Pc.top [asWord (c + 2), asWord (c + 3)]) []
          (asWord 1 :: asWords 2 c) false [] (Worker.idle :: List.replicate n Worker.idle)) := by
    have := run_dispatch_many (c + 1) (deadlockWords (c + 1))
      [asWord (c + 2), asWord (c + 3)] (Worker.idle :: List.replicate n Worker.idle)
      (asWords 1 (c + 1)) []
      (fun w hw => by
        obtain ⟨j, _, rfl⟩ := mem_asWords.mp hw
        rw [length_asWord]
        omega)
      (by simp [length_asWords])
    rw [length_asWords] at this
    rw [this, List.nil_append, asWords_succ_left]
  have h2 : run (c + 1) (deadlockWords (c + 1))
      (ParState.mk (Pc.top [asWord (c + 2), asWord (c + 3)]) []
          (asWord 1 :: asWords 2 c) false [] (Worker.idle :: List.replicate n Worker.idle))
      [Action.receive 0, Action.dispatch, Action.dispatch, Action.dispatch, Action.report 0]
      = some (ParState.mk (Pc.top [asWord (c + 3)]) []
          (asWord 2 :: asWords 3 c) false [] (Worker.idle :: List.replicate n Worker.idle)) := by
    have hd := run_dispatch_one (c + 1) (deadlockWords (c + 1)) (asWord (c + 2))
      [asWord (c + 3)] (asWords 2 c) false
      (Worker.busy (asWord 1) :: List.replicate n Worker.idle)
      (by rw [length_asWord]; omega) (by rw [length_asWords]; omega)
    rw [asWords_append_last] at hd
    rw [run_cons_of_step _ _ (step_receive_first _ _ _ _ _ _ _ _ _)]
    show run _ _ _ ([Action.dispatch, Action.dispatch, Action.dispatch] ++ [Action.report 0]) = _
    rw [run_append, hd]
    simp [run, step, reportStep, compound_asWord_one]
  have h3 : run (c + 1) (deadlockWords (c + 1))
      (ParState.mk (Pc.top [asWord (c + 3)]) []
          (asWord 2 :: asWords 3 c) false [] (Worker.idle :: List.replicate n Worker.idle))
      [Action.receive 0, Action.dispatch, Action.dispatch, Action.dispatch, Action.dispatch]
      = some (ParState.mk Pc.wait [] (asWords 3 c ++ asWord (c + 3) :: []) true []
          (Worker.busy (asWord 2) :: List.replicate n Worker.idle)) := by
    have hd := run_dispatch_one (c + 1) (deadlockWords (c + 1)) (asWord (c + 3))
      [] (asWords 3 c) false
      (Worker.busy (asWord 2) :: List.replicate n Worker.idle)
      (by rw [length_asWord]; omega) (by rw [length_asWords]; omega)
    rw [run_cons_of_step _ _ (step_receive_first _ _ _ _ _ _ _ _ _)]
    show run _ _ _ ([Action.dispatch, Action.dispatch, Action.dispatch] ++ [Action.dispatch]) = _
    rw [run_append, hd]
    simp [run, step, dispatcherStep]
  have h4 : run (c + 1) (deadlockWords (c + 1))
      (ParState.mk Pc.wait [] (asWords 3 c ++ asWord (c + 3) :: []) true []
          (Worker.busy (asWord 2) :: List.replicate n Worker.idle))
      (List.replicate (c + 1) [Action.report 0, Action.receive 0]).flatten
      = some (ParState.mk Pc.wait [] [] true (asWord 2 :: asWords 3 c)
          ([Worker.busy (asWord (c + 3))] ++ List.replicate n Worker.idle)) := by
    have := run_fill (c + 1) (deadlockWords (c + 1)) [] (asWord (c + 3)) []
      (List.replicate n Worker.idle) (asWords 3 c) (asWord 2) []
      (fun w hw => by
        rcases List.mem_cons.mp hw with rfl | hw
        · exact compound_deadlockWords (le_refl _) (by omega)
        · obtain ⟨j, hj, rfl⟩ := mem_asWords.mp hw
          exact compound_deadlockWords (by omega) (by omega))
      (by simp [length_asWords])
    rw [length_asWords] at this
    rw [this]
    simp
  have h5 := run_leave (c + 1) (deadlockWords (c + 1)) Pc.wait [] (asWord 2 :: asWords 3 c)
    n [Worker.busy (asWord (c + 3))]
  simp only [List.length_singleton] at h5
  unfold deadlockSchedule
  rw [hinit, run_append, run_append, run_append, run_append, h1]
  simp only [Option.some_bind]
  rw [h2]
  simp only [Option.some_bind]
  rw [h3]
  simp only [Option.some_bind]
  rw [h4]
  simp only [Option.some_bind]
  rw [h5]
  simp only [deadlockState, asWords_succ_left, List.singleton_append]

/-- On `deadlockWords` the sequential search returns the longest word. -/
theorem findLongest_deadlockWords_length (c : Nat) :
    (findLongest (deadlockWords (c + 1))).length = c + 3 := by
  have hmem : asWord (c + 3) ∈ deadlockWords (c + 1) :=
    mem_asWords.mpr ⟨c + 2, by omega, by congr 1; omega⟩
  obtain ⟨hr, _, hmax⟩ := (findLongest_spec (deadlockWords (c + 1))).2
    ⟨asWord (c + 3), hmem, compound_deadlockWords (by omega) (le_refl _)⟩
  have h1 := hmax _ hmem (compound_deadlockWords (by omega) (le_refl _))
  rw [length_asWord] at h1
  obtain ⟨j, hj, hrj⟩ := mem_asWords.mp hr
  have h2 := congrArg List.length hrj
  rw [length_asWord] at h2
  omega

/-- From `deadlockState` no execution goes on: every schedule that can be run
is empty, so the function never returns. -/
theorem run_deadlockState (c n : Nat) :
    ∀ more : List Action,
      (run (c + 1) (deadlockWords (c + 1)) (deadlockState (c + 1) n) more).bind ParState.result
        = none := by
  intro more
  cases more with
  | nil => rfl
  | cons a more =>
    have := step_none_of_full (c + 1) (deadlockWords (c + 1)) [] (asWord (c + 1 + 2)) []
      (asWords 2 (c + 1)) true n (compound_deadlockWords (by omega) (by omega))
      (by rw [length_asWords]) a
    simp only [run, deadlockState, this, Option.none_bind]

/-! ## Every execution that returns gives the length of the sequential search -/

theorem mem_set_of_ne {α : Type} {l : List α} {a b c : α} {k : Nat} (ha : a ∈ l)
    (hk : l[k]? = some b) (hab : a ≠ b) : a ∈ l.set k c := by
  obtain ⟨i, hi⟩ := List.mem_iff_getElem?.mp ha
  have hik : k ≠ i := by
    rintro rfl
    rw [hk] at hi
    exact hab (Option.some.inj hi).symm
  exact List.mem_iff_getElem?.mpr ⟨i, by rw [List.getElem?_set_ne hik]; exact hi⟩

theorem mem_set_self_of_getElem? {α : Type} {l : List α} {b c : α} {k : Nat}
    (hk : l[k]? = some b) : c ∈ l.set k c := by
  have hlt : k < l.length := by
    by_contra hcon
    rw [List.getElem?_eq_none (by omega)] at hk
    exact Option.noConfusion hk
  exact List.mem_iff_getElem?.mpr ⟨k, List.getElem?_set_self hlt⟩

theorem length_le_maxLength {cs : List Str} {x : Str} (h : x ∈ cs) :
    x.length ≤ maxLength cs := by
  induction cs with
  | nil => simp at h
  | cons c cs ih =>
    have h2 : maxLength (c :: cs) = max c.length (maxLength cs) := rfl
    rw [h2]
    rcases List.mem_cons.mp h with rfl | h
    · exact Nat.le_max_left _ _
    · exact le_trans (ih h) (Nat.le_max_right _ _)

theorem all_isDone_iff (ws : List Worker) :
    ws.all Worker.isDone = true ↔ ∀ w ∈ ws, w = Worker.done := by
  rw [List.all_eq_true]
  constructor
  · intro h w hw
    have := h w hw
    cases w with
    | idle => simp [Worker.isDone] at this
    | busy x => simp [Worker.isDone] at this
    | done => rfl
  · intro h w hw
    rw [h w hw]
    rfl

theorem parInv_init (n : Nat) (words : List Str) : ParInv words (initState (n + 1) words) where
  longest_ok := Or.inl rfl
  res_ok := fun c hc => by simp [initState] at hc
  pending_ok := fun x hx => by
    simp only [initState, List.not_mem_nil, false_or] at hx
    have := List.eq_of_mem_replicate hx
    exact Worker.noConfusion this
  cover := ⟨[], rfl, fun w hw => by simp at hw⟩
  closed_ok := fun h => by simp [initState] at h
  done_ok := fun h => by
    have := List.eq_of_mem_replicate h
    exact Worker.noConfusion this
  workers_ok := by simp [initState, List.replicate_succ]
  returned_ok := fun h => by simp [initState] at h

theorem parInv_dispatch (cap : Nat) (words : List Str) (s s2 : ParState)
    (hinv : ParInv words s) (h : dispatcherStep cap s = some s2) : ParInv words s2 := by
  obtain ⟨pc, l, wc, cl, rc, ws⟩ := s
  obtain ⟨h1, h2, h3, ⟨pre, hpre, hcov⟩, h5, h6, h7, h8⟩ := hinv
  simp only at h1 h2 h3 hpre hcov h5 h6 h7 h8
  cases pc with
  | top rest =>
    have hcl : cl = true → False := fun hc => by
      rcases h5 hc with h | h <;> exact Pc.noConfusion h
    cases rest with
    | nil =>
      simp only [dispatcherStep, Option.some.injEq] at h
      subst h
      exact ⟨h1, h2, h3, ⟨pre, hpre, hcov⟩, fun _ => Or.inl rfl,
        fun hd => ⟨rfl, (h6 hd).2⟩, h7, fun hr => Pc.noConfusion hr⟩
    | cons word rest =>
      simp only [dispatcherStep] at h
      split_ifs at h with hlen
      · simp only [Option.some.injEq] at h
        subst h
        refine ⟨h1, h2, h3, ⟨pre ++ [word], by simpa [Pc.remaining] using hpre, ?_⟩,
          fun hc => (hcl hc).elim, h6, h7, fun hr => Pc.noConfusion hr⟩
        intro w hw hcw
        rcases List.mem_append.mp hw with hw | hw
        · exact hcov w hw hcw
        · rw [List.mem_singleton.mp hw]
          exact ⟨l, hlen, Or.inl rfl⟩
      · simp only [Option.some.injEq] at h
        subst h
        exact ⟨h1, h2, h3, ⟨pre, hpre, hcov⟩, fun hc => (hcl hc).elim, h6, h7,
          fun hr => Pc.noConfusion hr⟩
  | drain j word rest =>
    have hcl : cl = true → False := fun hc => by
      rcases h5 hc with h | h <;> exact Pc.noConfusion h
    cases j with
    | zero =>
      simp only [dispatcherStep] at h
      split_ifs at h with hlen
      · simp only [Option.some.injEq] at h
        subst h
        exact ⟨h1, h2, h3, ⟨pre, hpre, hcov⟩, fun hc => (hcl hc).elim, h6, h7,
          fun hr => Pc.noConfusion hr⟩
      · simp only [Option.some.injEq] at h
        subst h
        refine ⟨h1, h2, h3, ⟨pre ++ [word], by simpa [Pc.remaining] using hpre, ?_⟩,
          fun hc => (hcl hc).elim, h6, h7, fun hr => Pc.noConfusion hr⟩
        intro w hw hcw
        rcases List.mem_append.mp hw with hw | hw
        · exact hcov w hw hcw
        · rw [List.mem_singleton.mp hw]
          exact ⟨l, by omega, Or.inl rfl⟩
    | succ j =>
      cases rc with
      | nil => simp [dispatcherStep] at h
      | cons c rc =>
        simp only [dispatcherStep, Option.some.injEq] at h
        subst h
        have hc := h2 c (List.mem_cons_self _ _)
        refine ⟨?_, fun x hx => h2 x (List.mem_cons_of_mem _ hx), h3, ⟨pre, hpre, ?_⟩,
          fun hc => (hcl hc).elim, h6, h7, fun hr => Pc.noConfusion hr⟩
        · rcases collectStep_cases l c with ⟨he, _⟩ | ⟨he, _⟩
          · simp only [he]; exact h1
          · simp only [he]; exact Or.inr hc
        · intro w hw hcw
          obtain ⟨x, hx, hx2⟩ := hcov w hw hcw
          rcases hx2 with rfl | hx2 | hx2
          · refine ⟨collectStep x c, ?_, Or.inl rfl⟩
            rcases collectStep_cases x c with ⟨he, _⟩ | ⟨he, hl⟩
            · rw [he]; exact hx
            · rw [he]; omega
          · rcases List.mem_cons.mp hx2 with rfl | hx2
            · refine ⟨collectStep l x, ?_, Or.inl rfl⟩
              rcases collectStep_cases l x with ⟨he, hl⟩ | ⟨he, _⟩
              · rw [he]; omega
              · rw [he]; exact hx
            · exact ⟨x, hx, Or.inr (Or.inl hx2)⟩
          · exact ⟨x, hx, Or.inr (Or.inr hx2)⟩
  | send word rest =>
    have hcl : cl = true → False := fun hc => by
      rcases h5 hc with h | h <;> exact Pc.noConfusion h
    simp only [dispatcherStep] at h
    split_ifs at h with hroom
    simp only [Option.some.injEq] at h
    subst h
    have hword : word ∈ words := by
      rw [hpre]
      simp [Pc.remaining]
    refine ⟨h1, h2, ?_, ⟨pre ++ [word], by simpa [Pc.remaining] using hpre, ?_⟩,
      fun hc => (hcl hc).elim, fun hd => (hcl (h6 hd).1).elim, h7, fun hr => Pc.noConfusion hr⟩
    · intro x hx
      rcases hx with hx | hx
      · rcases List.mem_append.mp hx with hx | hx
        · exact h3 x (Or.inl hx)
        · rw [List.mem_singleton.mp hx]
          exact hword
      · exact h3 x (Or.inr hx)
    · intro w hw hcw
      rcases List.mem_append.mp hw with hw | hw
      · obtain ⟨x, hx, hx2⟩ := hcov w hw hcw
        refine ⟨x, hx, ?_⟩
        rcases hx2 with hx2 | hx2 | ⟨hx2 | hx2, hx3⟩
        · exact Or.inl hx2
        · exact Or.inr (Or.inl hx2)
        · exact Or.inr (Or.inr ⟨Or.inl (List.mem_append_left _ hx2), hx3⟩)
        · exact Or.inr (Or.inr ⟨Or.inr hx2, hx3⟩)
      · rw [List.mem_singleton.mp hw] at hcw ⊢
        exact ⟨word, le_refl _, Or.inr (Or.inr ⟨Or.inl (by simp), hcw⟩)⟩
  | wait =>
    simp only [dispatcherStep] at h
    split_ifs at h with hall
    simp only [Option.some.injEq] at h
    subst h
    have hdone := (all_isDone_iff ws).mp hall
    obtain ⟨w0, hw0⟩ := List.exists_mem_of_ne_nil ws h7
    have hwc : wc = [] := (h6 (hdone w0 hw0 ▸ hw0)).2
    refine ⟨?_, fun c hc => by simp at hc, h3, ⟨pre, hpre, ?_⟩, fun _ => Or.inr rfl, h6, h7,
      fun _ => ⟨rfl, hdone⟩⟩
    · rcases collect_mem rc l with he | he
      · simp only [he]; exact h1
      · exact Or.inr (h2 _ he)
    · intro w hw hcw
      obtain ⟨x, hx, hx2⟩ := hcov w hw hcw
      refine ⟨collect l rc, ?_, Or.inl rfl⟩
      rw [collect_length]
      rcases hx2 with rfl | hx2 | ⟨hx2 | hx2, _⟩
      · exact le_trans hx (Nat.le_max_left _ _)
      · exact le_trans hx (le_trans (length_le_maxLength hx2) (Nat.le_max_right _ _))
      · rw [hwc] at hx2
        simp at hx2
      · exact Worker.noConfusion (hdone _ hx2)
  | returned => simp [dispatcherStep] at h

theorem parInv_receive (words : List Str) (k : Nat) (s s2 : ParState)
    (hinv : ParInv words s) (h : receiveStep k s = some s2) : ParInv words s2 := by
  obtain ⟨pc, l, wc, cl, rc, ws⟩ := s
  obtain ⟨h1, h2, h3, ⟨pre, hpre, hcov⟩, h5, h6, h7, h8⟩ := hinv
  simp only at h1 h2 h3 hpre hcov h5 h6 h7 h8
  simp only [receiveStep] at h
  cases hk : ws[k]? with
  | none => simp [hk] at h
  | some wk =>
    have hmem : wk ∈ ws := List.mem_iff_getElem?.mpr ⟨k, hk⟩
    cases wk with
    | busy x => simp [hk] at h
    | done => simp [hk] at h
    | idle =>
      have hret : pc = Pc.returned → False := fun hr =>
        Worker.noConfusion ((h8 hr).2 _ hmem)
      cases wc with
      | cons w wc2 =>
        simp only [hk, Option.some.injEq] at h
        subst h
        refine ⟨h1, h2, ?_, ⟨pre, hpre, ?_⟩, h5, ?_, ?_, fun hr => (hret hr).elim⟩
        · intro x hx
          rcases hx with hx | hx
          · exact h3 x (Or.inl (List.mem_cons_of_mem _ hx))
          · rcases List.mem_or_eq_of_mem_set hx with hx | hx
            · exact h3 x (Or.inr hx)
            · rw [Worker.busy.inj hx]
              exact h3 w (Or.inl (List.mem_cons_self _ _))
        · intro v hv hcv
          obtain ⟨x, hx, hx2⟩ := hcov v hv hcv
          refine ⟨x, hx, ?_⟩
          rcases hx2 with hx2 | hx2 | ⟨hx2 | hx2, hx3⟩
          · exact Or.inl hx2
          · exact Or.inr (Or.inl hx2)
          · rcases List.mem_cons.mp hx2 with rfl | hx2
            · exact Or.inr (Or.inr ⟨Or.inr (mem_set_self_of_getElem? hk), hx3⟩)
            · exact Or.inr (Or.inr ⟨Or.inl hx2, hx3⟩)
          · exact Or.inr (Or.inr ⟨Or.inr (mem_set_of_ne hx2 hk (fun e => Worker.noConfusion e)),
              hx3⟩)
        · intro hd
          rcases List.mem_or_eq_of_mem_set hd with hd | hd
          · exact absurd (h6 hd).2 (List.cons_ne_nil _ _)
          · exact Worker.noConfusion hd
        · simpa using h7
      | nil =>
        simp only [hk] at h
        split_ifs at h with hcl
        simp only [Option.some.injEq] at h
        subst h
        refine ⟨h1, h2, ?_, ⟨pre, hpre, ?_⟩, h5, fun _ => ⟨hcl, rfl⟩, ?_,
          fun hr => (hret hr).elim⟩
        · intro x hx
          rcases hx with hx | hx
          · exact h3 x (Or.inl hx)
          · rcases List.mem_or_eq_of_mem_set hx with hx | hx
            · exact h3 x (Or.inr hx)
            · exact Worker.noConfusion hx
        · intro v hv hcv
          obtain ⟨x, hx, hx2⟩ := hcov v hv hcv
          refine ⟨x, hx, ?_⟩
          rcases hx2 with hx2 | hx2 | ⟨hx2 | hx2, hx3⟩
          · exact Or.inl hx2
          · exact Or.inr (Or.inl hx2)
          · exact Or.inr (Or.inr ⟨Or.inl hx2, hx3⟩)
          · exact Or.inr (Or.inr ⟨Or.inr (mem_set_of_ne hx2 hk (fun e => Worker.noConfusion e)),
              hx3⟩)
        · simpa using h7

theorem parInv_report (cap : Nat) (words : List Str) (k : Nat) (s s2 : ParState)
    (hinv : ParInv words s) (h : reportStep cap words k s = some s2) : ParInv words s2 := by
  obtain ⟨pc, l, wc, cl, rc, ws⟩ := s
  obtain ⟨h1, h2, h3, ⟨pre, hpre, hcov⟩, h5, h6, h7, h8⟩ := hinv
  simp only at h1 h2 h3 hpre hcov h5 h6 h7 h8
  simp only [reportStep] at h
  cases hk : ws[k]? with
  | none => simp [hk] at h
  | some wk =>
    have hmem : wk ∈ ws := List.mem_iff_getElem?.mpr ⟨k, hk⟩
    cases wk with
    | idle => simp [hk] at h
    | done => simp [hk] at h
    | busy w =>
      have hret : pc = Pc.returned → False := fun hr =>
        Worker.noConfusion ((h8 hr).2 _ hmem)
      have hpend : ∀ x, (x ∈ wc ∨ Worker.busy x ∈ ws.set k Worker.idle) → x ∈ words := by
        intro x hx
        rcases hx with hx | hx
        · exact h3 x (Or.inl hx)
        · rcases List.mem_or_eq_of_mem_set hx with hx | hx
          · exact h3 x (Or.inr hx)
          · exact Worker.noConfusion hx
      have hdone : Worker.done ∈ ws.set k Worker.idle → cl = true ∧ wc = [] := by
        intro hd
        rcases List.mem_or_eq_of_mem_set hd with hd | hd
        · exact h6 hd
        · exact Worker.noConfusion hd
      have hne : ws.set k Worker.idle ≠ [] := by simpa using h7
      simp only [hk] at h
      split_ifs at h with hc hroom
      · simp only [Option.some.injEq] at h
        subst h
        refine ⟨h1, ?_, hpend, ⟨pre, hpre, ?_⟩, h5, hdone, hne, fun hr => (hret hr).elim⟩
        · intro c hcm
          rcases List.mem_append.mp hcm with hcm | hcm
          · exact h2 c hcm
          · rw [List.mem_singleton.mp hcm]
            exact ⟨h3 w (Or.inr hmem), hc⟩
        · intro v hv hcv
          obtain ⟨x, hx, hx2⟩ := hcov v hv hcv
          refine ⟨x, hx, ?_⟩
          rcases hx2 with hx2 | hx2 | ⟨hx2 | hx2, hx3⟩
          · exact Or.inl hx2
          · exact Or.inr (Or.inl (List.mem_append_left _ hx2))
          · exact Or.inr (Or.inr ⟨Or.inl hx2, hx3⟩)
          · by_cases hxw : x = w
            · exact Or.inr (Or.inl (by simp [hxw]))
            · exact Or.inr (Or.inr ⟨Or.inr (mem_set_of_ne hx2 hk
                (fun e => hxw (Worker.busy.inj e))), hx3⟩)
      · simp only [Option.some.injEq] at h
        subst h
        refine ⟨h1, h2, hpend, ⟨pre, hpre, ?_⟩, h5, hdone, hne, fun hr => (hret hr).elim⟩
        intro v hv hcv
        obtain ⟨x, hx, hx2⟩ := hcov v hv hcv
        refine ⟨x, hx, ?_⟩
        rcases hx2 with hx2 | hx2 | ⟨hx2 | hx2, hx3⟩
        · exact Or.inl hx2
        · exact Or.inr (Or.inl hx2)
        · exact Or.inr (Or.inr ⟨Or.inl hx2, hx3⟩)
        · have hxw : x ≠ w := by
            rintro rfl
            rw [hx3] at hc
            exact hc rfl
          exact Or.inr (Or.inr ⟨Or.inr (mem_set_of_ne hx2 hk
            (fun e => hxw (Worker.busy.inj e))), hx3⟩)

/-- The invariant holds in every state of every execution. -/
theorem parInv_run (cap : Nat) (words : List Str) :
    ∀ (sched : List Action) (s s2 : ParState), ParInv words s →
      run cap words s sched = some s2 → ParInv words s2 := by
  intro sched
  induction sched with
  | nil =>
    intro s s2 hinv h
    simp only [run, Option.some.injEq] at h
    exact h ▸ hinv
  | cons a sched ih =>
    intro s s2 hinv h
    simp only [run] at h
    cases hs : step cap words s a with
    | none => simp [hs] at h
    | some s1 =>
      rw [hs] at h
      refine ih s1 s2 ?_ h
      cases a with
      | dispatch => exact parInv_dispatch cap words s s1 hinv hs
      | receive k => exact parInv_receive words k s s1 hinv hs
      | report k => exact parInv_report cap words k s s1 hinv hs

/-- Whenever an execution of `findLongestParal(words)` with at least one worker
returns, under any schedule and with any capacity of the channels, the word it
returns has the length of the word that `findLongest(words)` returns. -/
theorem findLongestParal_length_of_returned (cap n : Nat) (words : List Str)
    (sched : List Action) (s : ParState)
    (h : run cap words (initState (n + 1) words) sched = some s) (hr : s.pc = Pc.returned) :
    s.longest.length = (findLongest words).length := by
  obtain ⟨h1, _, _, ⟨pre, hpre, hcov⟩, _, h6, h7, h8⟩ :=
    parInv_run cap words sched _ s (parInv_init n words) h
  obtain ⟨hres, hdone⟩ := h8 hr
  obtain ⟨w0, hw0⟩ := List.exists_mem_of_ne_nil _ h7
  have hwc : s.wordchan = [] := (h6 (hdone w0 hw0 ▸ hw0)).2
  rw [hr] at hpre
  simp only [Pc.remaining, List.append_nil] at hpre
  by_cases hex : ∃ w ∈ words, compound words w = true
  · obtain ⟨hm, hc, hmax⟩ := (findLongest_spec words).2 hex
    obtain ⟨x, hx, hx2⟩ := hcov (findLongest words) (hpre ▸ hm) hc
    have hxl : x = s.longest := by
      rcases hx2 with hx2 | hx2 | ⟨hx2 | hx2, _⟩
      · exact hx2
      · rw [hres] at hx2
        simp at hx2
      · rw [hwc] at hx2
        simp at hx2
      · exact Worker.noConfusion (hdone _ hx2)
    rw [hxl] at hx
    rcases h1 with h1 | ⟨h1, h1c⟩
    · rw [h1] at hx ⊢
      simp only [List.length_nil] at hx ⊢
      omega
    · exact le_antisymm (hmax _ h1 h1c) hx
  · have hnone : ∀ w ∈ words, compound words w = false := by
      intro w hw
      cases hc : compound words w with
      | false => rfl
      | true => exact absurd ⟨w, hw, hc⟩ hex
    rw [(findLongest_spec words).1 hnone]
    rcases h1 with h1 | ⟨h1, h1c⟩
    · rw [h1]
    · rw [hnone _ h1] at h1c
      exact absurd h1c Bool.false_ne_true

/-! ## The claims -/

/-- C1: on a list of valid UTF-8 strings sorted in ascending order, `compound`
answers `true` for a string (member of the list or not) exactly when the string
is the concatenation of at least two non-empty members of the list, members
being allowed to repeat. -/
theorem compound_iff_concat (words : List Str) (hs : Sorted words)
    (hv : ∀ w ∈ words, validUTF8 w = true) (word : Str) :
    compound words word = true ↔ IsConcat words word := by
  constructor
  · exact compound_sound words (runeCount word) word (le_refl _)
  · rintro ⟨parts, hlen, hmem, rfl⟩
    exact compound_complete hs hv parts hlen hmem

/-- C1, on cases of the test suite: `"ababc"` is compound in the list of
`"a"`, `"ab"`, `"abc"`, `"ababc"` (put in ascending order here: the test writes
`"abc"` before `"ababc"`, and `compound` answers `true` on that order too), and
`"ab"` is not compound in `["a","ab","c"]`. -/
theorem compound_iff_concat_witness :
    (compound [sA, sAB, sABABC, sABC] sABABC = true ∧
      IsConcat [sA, sAB, sABABC, sABC] sABABC) ∧
    compound [sA, sAB, sABC, sABABC] sABABC = true ∧
    (compound [sA, sAB, sC] sAB = false ∧ ¬ IsConcat [sA, sAB, sC] sAB) :=
  ⟨⟨by decide,
    (compound_iff_concat [sA, sAB, sABABC, sABC] (by decide) (by decide) sABABC).mp (by decide)⟩,
   by decide,
   ⟨by decide, fun h =>
    absurd ((compound_iff_concat [sA, sAB, sC] (by decide) (by decide) sAB).mpr h) (by decide)⟩⟩

/-- C2: with the length of a word being its number of bytes (Go's `len`): when
no member of the list is compound, `findLongest` returns `""`; otherwise it
returns a member of the list that is compound and at least as long as every
compound member.  It holds for every list, hence for the sorted duplicate-free
ones. -/
theorem findLongest_longest (words : List Str) :
    ((∀ w ∈ words, compound words w = false) → findLongest words = []) ∧
    ((∃ w ∈ words, compound words w = true) →
      findLongest words ∈ words ∧ compound words (findLongest words) = true ∧
      ∀ w ∈ words, compound words w = true → w.length ≤ (findLongest words).length) := by
  exact findLongest_spec words

/-- C2, on lists of the test suite: nothing is compound in `["a","ab","c"]`, and
in `["a","ab","b","bc","c"]` the answer is a compound member of maximal
length. -/
theorem findLongest_longest_witness :
    findLongest [sA, sAB, sC] = [] ∧
    (findLongest [sA, sAB, sB, sBC, sC] ∈ [sA, sAB, sB, sBC, sC] ∧
      compound [sA, sAB, sB, sBC, sC] (findLongest [sA, sAB, sB, sBC, sC]) = true ∧
      ∀ w ∈ [sA, sAB, sB, sBC, sC], compound [sA, sAB, sB, sBC, sC] w = true →
        w.length ≤ (findLongest [sA, sAB, sB, sBC, sC]).length) :=
  ⟨(findLongest_longest [sA, sAB, sC]).1 (by decide),
   (findLongest_longest [sA, sAB, sB, sBC, sC]).2 ⟨sBC, by decide, by decide⟩⟩

/-- C3: on a sorted duplicate-free list with at least one compound member,
`findLongest` returns the first of the longest compound members: the answer is a
compound member of maximal length, and every compound member `w` of the same
length as the answer is not below the answer in the byte-wise order and does not
come before it in the list. -/
theorem findLongest_first (words : List Str) (hs : StrictSorted words)
    (hex : ∃ w ∈ words, compound words w = true) :
    (findLongest words ∈ words ∧ compound words (findLongest words) = true ∧
      ∀ w ∈ words, compound words w = true → w.length ≤ (findLongest words).length) ∧
    ∀ w ∈ words, compound words w = true → w.length = (findLongest words).length →
      strLess w (findLongest words) = false ∧
      ∀ i j : Nat, words[i]? = some (findLongest words) → words[j]? = some w → i ≤ j := by
  refine ⟨(findLongest_spec words).2 hex, ?_⟩
  intro w hw hcw hlen
  have hwne : w ≠ [] := by
    rintro rfl
    rw [compound_nil] at hcw
    exact Bool.false_ne_true hcw
  have hpos : 0 < w.length := List.length_pos.mpr hwne
  have hle : strLess w (findLongest words) = false := by
    rcases scan_first words words [] hs w hw hcw hlen with h | h
    · unfold findLongest at hlen
      rw [h] at hlen
      simp only [List.length_nil] at hlen
      omega
    · exact h
  exact ⟨hle, fun i j hi hj => index_le_of_strictSorted hs hle hi hj⟩

/-- C3, on the tie of the test suite: in `["a","ab","b","bc","c"]` both `"ab"`
and `"bc"` are compound and of length 2, and the answer is `"ab"`. -/
theorem findLongest_first_witness :
    findLongest [sA, sAB, sB, sBC, sC] = sAB ∧
    compound [sA, sAB, sB, sBC, sC] sBC = true ∧
    (strLess sBC (findLongest [sA, sAB, sB, sBC, sC]) = false ∧
      ∀ i j : Nat, [sA, sAB, sB, sBC, sC][i]? = some (findLongest [sA, sAB, sB, sBC, sC]) →
        [sA, sAB, sB, sBC, sC][j]? = some sBC → i ≤ j) :=
  ⟨by decide, by decide,
   (findLongest_first [sA, sAB, sB, sBC, sC] (by decide) ⟨sAB, by decide, by decide⟩).2
     sBC (by decide) (by decide) (by decide)⟩

/-- C4: on a slice sorted in ascending order (the empty slice included) and for
every string (the empty string included), `contains` answers `true` exactly when
the string is an element of the slice; the index found by the binary search is
the leftmost one whose element is `>=` the string. -/
theorem contains_iff_mem (ss : List Str) (hs : Sorted ss) (s : Str) :
    (contains ss s = true ↔ s ∈ ss) ∧
    SearchStrings ss s ≤ ss.length ∧
    (∀ k, k < SearchStrings ss s → strLess (ss.getD k []) s = true) ∧
    (∀ k, SearchStrings ss s ≤ k → k < ss.length → strGE (ss.getD k []) s = true) := by
  obtain ⟨h1, h2, h3⟩ := SearchStrings_spec hs s
  refine ⟨⟨contains_sound, contains_complete hs⟩, h1, h2, ?_⟩
  intro k hk hkn
  simp only [strGE, h3 k hk hkn, Bool.not_false]

/-- C4, on cases of the test suite: `"a"` is found in `["a","b"]`, the empty
string is found in `[""]` and not in `["a"]`, and nothing is found in `[]`. -/
theorem contains_iff_mem_witness :
    ((contains [sA, sB] sA = true ↔ sA ∈ [sA, sB]) ∧ contains [sA, sB] sA = true) ∧
    ((contains [[]] [] = true ↔ ([] : Str) ∈ [([] : Str)]) ∧ contains [[]] [] = true) ∧
    ((contains [sA] [] = true ↔ ([] : Str) ∈ [sA]) ∧ contains [sA] [] = false) ∧
    ((contains [] [] = true ↔ ([] : Str) ∈ ([] : List Str)) ∧ contains [] [] = false) :=
  ⟨⟨(contains_iff_mem [sA, sB] (by decide) sA).1, by decide⟩,
   ⟨(contains_iff_mem [[]] (by decide) []).1, by decide⟩,
   ⟨(contains_iff_mem [sA] (by decide) []).1, by decide⟩,
   ⟨(contains_iff_mem [] (by decide) []).1, by decide⟩⟩

/-- C5: counted in code points the answer of `findLongest` need not be the
longest compound member.  In the sorted duplicate-free list of valid UTF-8
strings `["a","abc","bc","世","世界","界"]` the answer is `"世界"`, which has
2 code points (6 bytes), although the compound member `"abc"` has 3. -/
theorem findLongest_not_longest_in_codepoints :
    StrictSorted [sA, sABC, sBC, sShi, sShiJie, sJie] ∧
    (∀ w ∈ [sA, sABC, sBC, sShi, sShiJie, sJie], validUTF8 w = true) ∧
    findLongest [sA, sABC, sBC, sShi, sShiJie, sJie] = sShiJie ∧
    sABC ∈ [sA, sABC, sBC, sShi, sShiJie, sJie] ∧
    compound [sA, sABC, sBC, sShi, sShiJie, sJie] sABC = true ∧
    runeCount (findLongest [sA, sABC, sBC, sShi, sShiJie, sJie]) = 2 ∧
    runeCount sABC = 3 ∧
    ¬ (∀ words : List Str, StrictSorted words → ∀ w ∈ words, compound words w = true →
        runeCount w ≤ runeCount (findLongest words)) := by
  refine ⟨by decide, by decide, by decide, by decide, by decide, by decide, by decide, ?_⟩
  intro h
  have := h [sA, sABC, sBC, sShi, sShiJie, sJie] (by decide) sABC (by decide) (by decide)
  revert this
  decide

/-- C7: whatever the list, `compound` answers `false` for the empty string and
for a string of exactly one rune, be it encoded in one byte or in several: such
a string has no split offset other than 0, the one the loop skips. -/
theorem compound_short_false (words : List Str) (word : Str) (h : runeCount word ≤ 1) :
    compound words word = false ∧ ∀ i ∈ rangeIndices word, i = 0 := by
  have h0 := rangeIndices_eq_zero_of_runeCount_le_one h
  refine ⟨?_, h0⟩
  rw [compound_eq]
  apply List.any_eq_false.mpr
  intro i hi
  simp [splitOK, h0 i hi]

/-- C7, on `compound(["a"], "a")` of the test suite, on the empty string, and on
the three-byte rune `"世"` with its own bytes offered as words. -/
theorem compound_short_false_witness :
    (compound [sA] sA = false ∧ ∀ i ∈ rangeIndices sA, i = 0) ∧
    (compound [[], sA] [] = false ∧ ∀ i ∈ rangeIndices [], i = 0) ∧
    (compound [[0x96], [0xB8, 0x96], [0xE4], [0xE4, 0xB8], sShi] sShi = false ∧
      ∀ i ∈ rangeIndices sShi, i = 0) :=
  ⟨compound_short_false [sA] sA (by decide),
   compound_short_false [[], sA] [] (by decide),
   compound_short_false [[0x96], [0xB8, 0x96], [0xE4], [0xE4, 0xB8], sShi] sShi (by decide)⟩

/-- C8: on a sorted list the empty string is never used as a constituent:
`compound` gives the same answer when the empty strings are removed from the
list, every split that it tests has a non-empty prefix and a non-empty rest, and
a word is not compound in the list made of `""` and of the word itself. -/
theorem compound_ignores_empty (words : List Str) (hs : Sorted words) (word : Str) :
    compound words word = compound (words.filter (fun w => decide (w ≠ []))) word ∧
    (∀ i ∈ rangeIndices word, i ≠ 0 → word.take i ≠ [] ∧ word.drop i ≠ []) ∧
    compound [[], word] word = false := by
  refine ⟨compound_filter_nonempty hs word, ?_, ?_⟩
  · intro i hi hi0
    exact ⟨take_ne_nil hi0 (rangeIndices_lt hi hi0), drop_ne_nil (rangeIndices_lt hi hi0)⟩
  · cases hc : compound [[], word] word with
    | false => rfl
    | true =>
      obtain ⟨i, hi, hi0, hp, _⟩ := (compound_true_iff _ _).mp hc
      have hlt := rangeIndices_lt hi hi0
      have hmem := contains_sound hp
      simp only [List.mem_cons, List.mem_singleton, List.not_mem_nil, or_false] at hmem
      rcases hmem with h | h
      · exact absurd h (take_ne_nil hi0 hlt)
      · have := congrArg List.length h
        simp only [List.length_take] at this
        omega

/-- C8, on the sorted list `["","a","ab","b"]`, whose first element is the empty
string: `"ab"` is compound with and without it, and `"a"` is compound with
neither. -/
theorem compound_ignores_empty_witness :
    (compound [[], sA, sAB, sB] sAB = compound [sA, sAB, sB] sAB ∧
      (∀ i ∈ rangeIndices sAB, i ≠ 0 → sAB.take i ≠ [] ∧ sAB.drop i ≠ []) ∧
      compound [[], sAB] sAB = false) ∧
    compound [[], sA, sAB, sB] sAB = true ∧
    compound [[], sA, sAB, sB] sA = false :=
  ⟨compound_ignores_empty [[], sA, sAB, sB] (by decide) sAB, by decide, by decide⟩

/-- C9: `compound` terminates on every input.  After a split offset other than
0 the rest has strictly fewer runes than the word, so the recursion nests at
most `runeCount word - 1` calls below the first one: run with any budget of
that size or more, in particular with `runeCount word`, the recursion comes
back with the answer of `compound`. -/
theorem compound_terminates (words : List Str) (word : Str) :
    compoundAux words (runeCount word) word = some (compound words word) ∧
    (∀ d : Nat, runeCount word ≤ d + 1 →
      compoundAux words d word = some (compound words word)) ∧
    (∀ i ∈ rangeIndices word, i ≠ 0 →
      i < word.length ∧ runeCount (word.drop i) < runeCount word) :=
  ⟨compoundAux_eq words _ word (by omega),
   fun d hd => compoundAux_eq words d word hd,
   fun _ hi hi0 => ⟨rangeIndices_lt hi hi0, runeCount_drop_lt hi hi0⟩⟩

/-- C9, on `"ababc"` (5 runes) in `["a","ab","ababc","abc"]`: four nested calls
are enough, and the rest after the offset 2 has 3 runes. -/
theorem compound_terminates_witness :
    compoundAux [sA, sAB, sABABC, sABC] 4 sABABC
      = some (compound [sA, sAB, sABABC, sABC] sABABC) ∧
    (2 < sABABC.length ∧ runeCount (sABABC.drop 2) < runeCount sABABC) :=
  ⟨(compound_terminates [sA, sAB, sABABC, sABC] sABABC).2.1 4 (by decide),
   (compound_terminates [sA, sAB, sABABC, sABC] sABABC).2.2 2 (by decide) (by decide)⟩

/-- C10: sortedness is needed.  The list `["b","a","ab"]` is free of duplicates
and not sorted; its member `"ab"` is `"a"` followed by `"b"`, but the binary
search does not find `"a"`, and `findLongest` returns `""` without failing,
whereas on the sorted list `["a","ab","b"]` it returns `"ab"`. -/
theorem findLongest_unsorted_misses :
    ∃ words : List Str, words.Nodup ∧ ¬ Sorted words ∧
      (∃ a ∈ words, ∃ b ∈ words, a ≠ [] ∧ b ≠ [] ∧ a ++ b ∈ words ∧
        contains words a = false) ∧
      findLongest words = [] ∧
      findLongest [sA, sAB, sB] = sAB ∧ words.Perm [sA, sAB, sB] :=
  ⟨[sB, sA, sAB], by decide, by decide,
   ⟨sA, by decide, sB, by decide, by decide, by decide, by decide, by decide⟩,
   by decide, by decide, by decide⟩

/-- C11: on a list of exactly one word, whatever the word (the empty string
included), `findLongest` returns `""`; on the empty list it returns `""` too. -/
theorem findLongest_singleton (w : Str) :
    findLongest [w] = [] ∧ findLongest ([] : List Str) = [] := by
  refine ⟨?_, rfl⟩
  show findLongestStep [w] [] w = []
  rcases findLongestStep_cases [w] [] w with ⟨h, _⟩ | ⟨_, _, hc⟩
  · exact h
  · rw [compound_singleton] at hc
    exact absurd hc Bool.false_ne_true

/-- C11, on `findLongest(["a"])` of the test suite and on `findLongest([""])`. -/
theorem findLongest_singleton_witness :
    findLongest [sA] = [] ∧ findLongest [([] : Str)] = [] :=
  ⟨(findLongest_singleton sA).1, (findLongest_singleton []).1⟩

/-- C12, as stated, fails: the slice `[""]` is sorted and `contains([""], "")`
is `true`, as the test suite expects, so `contains(ss, "")` is not `false` for
every sorted slice. -/
theorem contains_empty_string_not_always_false :
    Sorted [([] : Str)] ∧ contains [([] : Str)] [] = true ∧
    ¬ (∀ ss : List Str, Sorted ss → contains ss [] = false) := by
  refine ⟨by decide, by decide, ?_⟩
  intro h
  have := h [[]] (by decide)
  revert this
  decide

/-- C12, amended: on a sorted slice `contains(ss, "")` answers `true` exactly
when the empty string is an element of the slice, which is when the slice
starts with it; it answers `false` on every slice without the empty string, the
empty slice included. -/
theorem contains_empty_string (ss : List Str) (hs : Sorted ss) :
    (contains ss [] = true ↔ ([] : Str) ∈ ss) ∧
    (contains ss [] = true ↔ ss.head? = some []) ∧
    (([] : Str) ∉ ss → contains ss [] = false) := by
  refine ⟨⟨contains_sound, contains_complete hs⟩, contains_nil_iff_head ss, ?_⟩
  intro hne
  cases hc : contains ss [] with
  | false => rfl
  | true => exact absurd (contains_sound hc) hne

/-- C12, amended, on the cases of the test suite: `""` is found in `[""]`, and
neither in `["a"]` nor in `[]`. -/
theorem contains_empty_string_witness :
    (contains [([] : Str)] [] = true ↔ ([] : Str) ∈ [([] : Str)]) ∧
    contains [sA] [] = false ∧
    contains ([] : List Str) [] = false :=
  ⟨(contains_empty_string [[]] (by decide)).1,
   (contains_empty_string [sA] (by decide)).2.2 (by decide),
   (contains_empty_string [] (by decide)).2.2 (by decide)⟩

/-- C14: the running best of `findLongest` never gets shorter.  One iteration
leaves `longest` as it is or replaces it by the current word, and it replaces it
only by a strictly longer word that is compound; so after any part `pre` of the
scan `longest` is `""` or a compound word of `pre`, and it is not longer than it
will be after any further part `suf`. -/
theorem findLongest_running_best (words pre suf : List Str) (b x : Str) :
    (findLongestStep words b x = b ∨
      (findLongestStep words b x = x ∧ b.length < x.length ∧ compound words x = true)) ∧
    b.length ≤ (findLongestStep words b x).length ∧
    (pre.foldl (findLongestStep words) [] = [] ∨
      (pre.foldl (findLongestStep words) [] ∈ pre ∧
        compound words (pre.foldl (findLongestStep words) []) = true)) ∧
    (pre.foldl (findLongestStep words) []).length
      ≤ ((pre ++ suf).foldl (findLongestStep words) []).length := by
  refine ⟨?_, ?_, ?_, ?_⟩
  · rcases findLongestStep_cases words b x with ⟨h, _⟩ | h
    · exact Or.inl h
    · exact Or.inr h
  · exact scan_length_le words [x] b
  · rcases (scan_spec words pre []).1 with h | ⟨h1, h2, _⟩
    · exact Or.inl h
    · exact Or.inr ⟨h1, h2⟩
  · rw [List.foldl_append]
    exact scan_length_le words suf _

/-- C15: the collection of results does not depend on the order of arrival.
Starting from `b` and receiving the candidates in any order `cs2` that is a
permutation of `cs`, the final best has the length
`max(len(b), greatest length of a candidate)` and is `b` or one of the
candidates. -/
theorem collect_order_independent (b : Str) (cs cs2 : List Str) (hp : cs.Perm cs2) :
    (collect b cs2).length = max b.length (maxLength cs) ∧
    (collect b cs2 = b ∨ collect b cs2 ∈ cs) ∧
    (collect b cs2).length = (collect b cs).length := by
  refine ⟨?_, ?_, ?_⟩
  · rw [collect_length, maxLength_perm hp]
  · rcases collect_mem cs2 b with h | h
    · exact Or.inl h
    · exact Or.inr (hp.mem_iff.mpr h)
  · rw [collect_length, collect_length, maxLength_perm hp]

/-- C15, on the candidates `"ab"`, `"abc"`, `"bc"` received after `"a"` in two
orders: the final best is `"abc"` both times here, of length 3. -/
theorem collect_order_independent_witness :
    ((collect sA [sBC, sABC, sAB]).length = max sA.length (maxLength [sAB, sABC, sBC]) ∧
      (collect sA [sBC, sABC, sAB] = sA ∨ collect sA [sBC, sABC, sAB] ∈ [sAB, sABC, sBC]) ∧
      (collect sA [sBC, sABC, sAB]).length = (collect sA [sAB, sABC, sBC]).length) ∧
    collect sA [sBC, sABC, sAB] = sABC ∧ collect sAB [sBC] = sAB ∧ collect sBC [sAB] = sBC :=
  ⟨collect_order_independent sA [sAB, sABC, sBC] [sBC, sABC, sAB] (by decide),
   by decide, by decide, by decide⟩

/-- C16: soundness does not need the list to be sorted.  On every list,
`contains` only reports elements of the list, `compound` only reports
concatenations of at least two non-empty members, and an answer of `findLongest`
other than `""` is a member of the list that is such a concatenation. -/
theorem sound_without_sortedness (words : List Str) :
    (∀ s : Str, contains words s = true → s ∈ words) ∧
    (∀ word : Str, compound words word = true → IsConcat words word) ∧
    (findLongest words ≠ [] →
      findLongest words ∈ words ∧ IsConcat words (findLongest words)) := by
  refine ⟨fun _ h => contains_sound h,
    fun word h => compound_sound words (runeCount word) word (le_refl _) h, ?_⟩
  intro hne
  rcases (scan_spec words words []).1 with h | ⟨h1, h2, _⟩
  · exact absurd h hne
  · exact ⟨h1, compound_sound words _ _ (le_refl _) h2⟩

/-- C16, on the unsorted list `["a","b","ab"]`, where the answer is `"ab"`, and
on the unsorted list `["b","a","ab"]`, where `"a"` is missed. -/
theorem sound_without_sortedness_witness :
    ¬ Sorted [sA, sB, sAB] ∧
    (findLongest [sA, sB, sAB] ∈ [sA, sB, sAB] ∧
      IsConcat [sA, sB, sAB] (findLongest [sA, sB, sAB])) ∧
    sB ∈ [sA, sB, sAB] ∧
    contains [sB, sA, sAB] sA = false :=
  ⟨by decide, (sound_without_sortedness [sA, sB, sAB]).2.2 (by decide),
   (sound_without_sortedness [sA, sB, sAB]).1 sB (by decide), by decide⟩

/-- C17: adding words never shortens the answer.  When every element of `a` is
an element of the sorted list `b`, every word compound in `a` is compound in
`b`, and the answer on `a` is not longer than the answer on `b`.  (Neither the
order of `a` nor the absence of duplicates is used.) -/
theorem compound_findLongest_mono (a b : List Str) (hb : Sorted b)
    (hab : ∀ x ∈ a, x ∈ b) :
    (∀ w : Str, compound a w = true → compound b w = true) ∧
    (findLongest a).length ≤ (findLongest b).length := by
  have hc : ∀ s : Str, contains a s = true → contains b s = true :=
    fun s h => contains_complete hb (hab s (contains_sound h))
  have hmono : ∀ w : Str, compound a w = true → compound b w = true :=
    fun w h => compound_mono hc (runeCount w) w (le_refl _) h
  refine ⟨hmono, ?_⟩
  rcases (scan_spec a a []).1 with h | ⟨h1, h2, _⟩
  · unfold findLongest
    rw [h]
    exact Nat.zero_le _
  · exact (scan_spec b b []).2 _ (hab _ h1) (hmono _ h2)

/-- C17, on the sorted duplicate-free lists `["a","ab","b"]` and
`["a","ab","abc","b","c"]`: `"ab"` stays compound, and the answer grows from
`"ab"` to `"abc"`. -/
theorem compound_findLongest_mono_witness :
    StrictSorted [sA, sAB, sB] ∧ StrictSorted [sA, sAB, sABC, sB, sC] ∧
    ((∀ w : Str, compound [sA, sAB, sB] w = true → compound [sA, sAB, sABC, sB, sC] w = true) ∧
      (findLongest [sA, sAB, sB]).length ≤ (findLongest [sA, sAB, sABC, sB, sC]).length) ∧
    findLongest [sA, sAB, sB] = sAB ∧ findLongest [sA, sAB, sABC, sB, sC] = sABC :=
  ⟨by decide, by decide,
   compound_findLongest_mono [sA, sAB, sB] [sA, sAB, sABC, sB, sC] (by decide) (by decide),
   by decide, by decide⟩

/-- C18: the sequential search does not need the list to be free of duplicates.
On a list sorted in ascending order with repetitions allowed, `findLongest` and
`compound` give the answers they give on the list without its consecutive
duplicates, which is sorted and free of duplicates. -/
theorem duplicates_harmless (words : List Str) (hs : Sorted words) :
    findLongest words = findLongest (removeConsecutiveDuplicates words) ∧
    (∀ w : Str, compound words w = compound (removeConsecutiveDuplicates words) w) ∧
    StrictSorted (removeConsecutiveDuplicates words) := by
  have hs2 : Sorted (removeConsecutiveDuplicates words) :=
    List.Pairwise.sublist (removeConsecutiveDuplicates_sublist words) hs
  have hcomp : ∀ w : Str, compound words w = compound (removeConsecutiveDuplicates words) w := by
    intro w
    apply compound_congr _ (runeCount w) w (le_refl _)
    intro s _
    rw [contains_eq_decide hs, contains_eq_decide hs2]
    simp only [mem_removeConsecutiveDuplicates]
  have hstep : findLongestStep (removeConsecutiveDuplicates words) = findLongestStep words := by
    funext b x
    simp only [findLongestStep, hcomp]
  refine ⟨?_, hcomp, removeConsecutiveDuplicates_strictSorted words hs⟩
  unfold findLongest
  rw [hstep, scan_removeConsecutiveDuplicates]

/-- C18, on the sorted list `["a","a","ab","b","b"]`, whose duplicates leave
`["a","ab","b"]`: the answer is `"ab"` on both. -/
theorem duplicates_harmless_witness :
    removeConsecutiveDuplicates [sA, sA, sAB, sB, sB] = [sA, sAB, sB] ∧
    findLongest [sA, sA, sAB, sB, sB] = sAB ∧
    (findLongest [sA, sA, sAB, sB, sB]
        = findLongest (removeConsecutiveDuplicates [sA, sA, sAB, sB, sB]) ∧
      (∀ w : Str, compound [sA, sA, sAB, sB, sB] w
        = compound (removeConsecutiveDuplicates [sA, sA, sAB, sB, sB]) w) ∧
      StrictSorted (removeConsecutiveDuplicates [sA, sA, sAB, sB, sB])) :=
  ⟨by decide, by decide, duplicates_harmless [sA, sA, sAB, sB, sB] (by decide)⟩

/-- C6: `findLongestParal` does not return a word as long as the one of
`findLongest` under every schedule.  On the sorted duplicate-free list `"a"`,
`"aa"`, ... up to 1002 letters, with any number `n + 1` of workers, the
sequential search returns a word of 1002 bytes, and `deadlockSchedule` is an
execution of the parallel search that no further step extends to a return: the
parallel search returns nothing.  (On the list `["a","ab","b"]` of the test
suite the schedule shown returns `"ab"`, as the sequential search does.) -/
theorem findLongestParal_no_result (n : Nat) :
    StrictSorted (deadlockWords chanCap) ∧
    (findLongest (deadlockWords chanCap)).length = chanCap + 2 ∧
    (∀ more : List Action,
      (run chanCap (deadlockWords chanCap) (initState (n + 1) (deadlockWords chanCap))
        (deadlockSchedule chanCap n ++ more)).bind ParState.result = none) ∧
    (run chanCap [sA, sAB, sB] (initState 1 [sA, sAB, sB])
        [Action.dispatch, Action.dispatch, Action.dispatch, Action.receive 0, Action.report 0,
         Action.dispatch, Action.dispatch, Action.dispatch, Action.receive 0, Action.report 0,
         Action.dispatch, Action.dispatch, Action.dispatch, Action.dispatch,
         Action.receive 0, Action.dispatch]).bind ParState.result
      = some (findLongest [sA, sAB, sB]) := by
  refine ⟨strictSorted_asWords 1 _, findLongest_deadlockWords_length 999, ?_, by decide⟩
  intro more
  have h := run_deadlockSchedule 999 n
  have h2 := run_deadlockState 999 n more
  show (run (999 + 1) (deadlockWords (999 + 1)) (initState (n + 1) (deadlockWords (999 + 1)))
    (deadlockSchedule (999 + 1) n ++ more)).bind ParState.result = none
  rw [run_append, h]
  exact h2

/-- C13: `findLongestParal` can block for ever.  On the sorted duplicate-free
list `"a"`, `"aa"`, ... up to 1002 letters (1001 compound words, one more than
the capacity of `reschan`) and with any number `n + 1` of workers,
`deadlockSchedule` is an execution that ends with the dispatcher at `wg.Wait()`,
`reschan` full with 1000 words, `wordchan` closed and empty, the first worker
holding a compound word that it cannot send and every other worker gone: no
goroutine has a step. -/
theorem findLongestParal_deadlock (n : Nat) :
    StrictSorted (deadlockWords chanCap) ∧
    run chanCap (deadlockWords chanCap) (initState (n + 1) (deadlockWords chanCap))
        (deadlockSchedule chanCap n)
      = some (deadlockState chanCap n) ∧
    (deadlockState chanCap n).pc = Pc.wait ∧
    (deadlockState chanCap n).reschan.length = chanCap ∧
    (deadlockState chanCap n).workers
      = Worker.busy (asWord (chanCap + 2)) :: List.replicate n Worker.done ∧
    compound (deadlockWords chanCap) (asWord (chanCap + 2)) = true ∧
    (∀ a : Action,
      step chanCap (deadlockWords chanCap) (deadlockState chanCap n) a = none) := by
  have hc : compound (deadlockWords chanCap) (asWord (chanCap + 2)) = true := by
    show compound (asWords 1 (chanCap + 2)) (asWord (chanCap + 2)) = true
    exact compound_asWord (Nat.le_add_left 2 chanCap) (le_refl _)
  have hlen : (asWords 2 chanCap).length = chanCap := length_asWords 2 chanCap
  refine ⟨strictSorted_asWords 1 _, run_deadlockSchedule 999 n, rfl, ?_, rfl, hc, ?_⟩
  · simp only [deadlockState]
    exact hlen
  · exact step_none_of_full chanCap (deadlockWords chanCap) [] (asWord (chanCap + 2)) []
      (asWords 2 chanCap) true n hc (le_of_eq hlen.symm)

end FindCompWord
